import Mathlib

/-!
Verification of the Game-Pass-Database data-fusion pipeline.

Shallow embedding of the Python sources:
  * `src/utils/xbox_store_parser.py` (`XboxStoreParser`)
  * `src/utils/igdb_best_match.py`  (fuzzy title matching)
  * `src/utils/json_maker.py`       (`JSONMaker.group_skus_by_platform`, `compose_jsons`)
  * `src/flask_for_json.py`         (basic-info save with sibling propagation)
  * `src/utils/igdb_updater.py`     (`update_igdb`)

Python strings are modelled as Lean `String`/`List Char`; Python floats as `ℚ`
(the arithmetic in scope is exact in double precision); Python dicts as
insertion-ordered association lists; Python object identity (dict values shared
between keys after `result["EA Play"] = result["Ultimate"]`) is modelled with an
explicit cell heap.  Case mapping (`str.lower`) is modelled for ASCII, which
covers every string the repository feeds through it.
-/

namespace GPDB

/-! ## Python string primitives -/

/-- `str.lower` restricted to ASCII case mapping. -/
def asciiLower (c : Char) : Char :=
  if 'A' ≤ c ∧ c ≤ 'Z' then Char.ofNat (c.toNat + 32) else c

def lowerChars (s : List Char) : List Char := s.map asciiLower

/-- Python `\s` / `str.strip` whitespace (ASCII part). -/
def pyIsSpace (c : Char) : Bool :=
  c = ' ' || c = '\t' || c = '\n' || c = '\x0d' || c = '\x0b' || c = '\x0c'

/-- Python `str.strip()`. -/
def stripChars (s : List Char) : List Char :=
  ((s.dropWhile pyIsSpace).reverse.dropWhile pyIsSpace).reverse

/-- `s.split(sep)[0]` for a one-character separator: the prefix before the
first occurrence of `sep`. -/
def beforeFirst (sep : Char) (s : List Char) : List Char :=
  s.takeWhile (· ≠ sep)

/-- Split a character list on a separator character (Python `str.split(sep)`). -/
def splitOnChar (sep : Char) : List Char → List (List Char)
  | [] => [[]]
  | c :: rest =>
    let r := splitOnChar sep rest
    if c = sep then [] :: r
    else
      match r with
      | [] => [[c]]
      | seg :: segs => (c :: seg) :: segs

def isDigitChar (c : Char) : Bool := '0' ≤ c ∧ c ≤ '9'

def digitsVal (l : List Char) : Nat :=
  l.foldl (fun acc c => acc * 10 + (c.toNat - '0'.toNat)) 0

def digitChar (n : Nat) : Char := Char.ofNat ('0'.toNat + n % 10)

/-! ## Insertion-ordered dicts (Python `dict`) as association lists -/

/-- Python dict assignment `d[k] = v`: overwrite in place if the key exists
(keeping its position), otherwise append. -/
def alistSet {α : Type} (k : String) (v : α) :
    List (String × α) → List (String × α)
  | [] => [(k, v)]
  | (k', v') :: rest =>
    if k' = k then (k, v) :: rest else (k', v') :: alistSet k v rest

/-- Python dict read `d.get(k)` / `d[k]` (first binding; keys are unique in
every dict this development builds). -/
def alistGet {α : Type} (k : String) : List (String × α) → Option α
  | [] => none
  | (k', v) :: rest => if k' = k then some v else alistGet k rest

/-! ## Dates: `datetime.strptime(_, "%Y-%m-%d")`, comparison, `strftime` -/

structure PyDate where
  year : Nat
  month : Nat
  day : Nat
deriving DecidableEq, Repr

/-- `datetime` comparison is lexicographic on (year, month, day). -/
def PyDate.lt (a b : PyDate) : Bool :=
  a.year < b.year ||
    (a.year = b.year && (a.month < b.month ||
      (a.month = b.month && a.day < b.day)))

def isLeap (y : Nat) : Bool := (y % 4 = 0 && y % 100 ≠ 0) || y % 400 = 0

def daysInMonth (y m : Nat) : Nat :=
  if m = 2 then (if isLeap y then 29 else 28)
  else if m = 4 || m = 6 || m = 9 || m = 11 then 30
  else 31

/-- CPython `_strptime` accepts `%Y` as exactly four digits, `%m` and `%d` as
one or two digits within range; the `datetime` constructor then validates the
day against the month length and the year against `MINYEAR = 1`.  Errors carry
the messages CPython raises (`ValueError`). -/
def strptimeYMD (s : String) : Except String PyDate :=
  let mismatch : Except String PyDate :=
    .error ("time data '" ++ s ++ "' does not match format '%Y-%m-%d'")
  match splitOnChar '-' s.toList with
  | [ys, ms, ds] =>
    if ys.length = 4 && ys.all isDigitChar &&
       (ms.length = 1 || ms.length = 2) && ms.all isDigitChar &&
       (ds.length = 1 || ds.length = 2) && ds.all isDigitChar then
      let y := digitsVal ys
      let m := digitsVal ms
      let d := digitsVal ds
      if 1 ≤ m && m ≤ 12 && 1 ≤ d && d ≤ 31 then
        if y = 0 then .error "year 0 is out of range"
        else if d > daysInMonth y m then .error "day is out of range for month"
        else .ok ⟨y, m, d⟩
      else mismatch
    else mismatch
  | _ => mismatch

/-- `datetime.strftime(_, "%Y-%m-%d")` (zero-padded fields). -/
def strftimeYMD (d : PyDate) : String :=
  ⟨[digitChar (d.year / 1000), digitChar (d.year / 100), digitChar (d.year / 10),
    digitChar d.year, '-', digitChar (d.month / 10), digitChar d.month, '-',
    digitChar (d.day / 10), digitChar d.day]⟩

/-- `min` over a nonempty list of dates (Python `min`: keeps the earliest seen
element, earlier elements win ties). -/
def minDate (d : PyDate) (rest : List PyDate) : PyDate :=
  rest.foldl (fun acc x => if PyDate.lt x acc then x else acc) d

/-- Year of `datetime.fromtimestamp(ts, timezone.utc)` (civil-from-days,
proleptic Gregorian calendar). -/
def yearOfTimestamp (ts : Int) : Int :=
  let days : Int := Int.fdiv ts 86400
  let z : Int := days + 719468
  let era : Int := Int.fdiv z 146097
  let doe : Nat := (z - era * 146097).toNat
  let yoe : Nat := (doe - doe / 1460 + doe / 36524 - doe / 146096) / 365
  let doy : Nat := doe - (365 * yoe + yoe / 4 - yoe / 100)
  let mp : Nat := (5 * doy + 2) / 153
  let m : Nat := if mp < 10 then mp + 3 else mp - 9
  (yoe : Int) + era * 400 + (if m ≤ 2 then 1 else 0)

/-! ## `src/utils/xbox_store_parser.py` — `XboxStoreParser`

The raw storefront document is modelled with the fields the parser reads.
`store_data.get(key)` on an absent key is `none`; `get(key, [])` defaults to
the empty list (a JSON `null` under such a key is folded into "absent").
The nested `specificPrices.purchaseable.msrp` path is flattened into one
optional numeric field. -/

structure PassMeta where
  entryDateUTC : Option String
  exitDateUTC : Option String
deriving DecidableEq, Repr

structure StoreData where
  title : Option String
  publisherName : Option String
  developerName : Option String
  availableOn : List String
  categories : List String
  capabilities : List String
  releaseDate : Option String
  msrp : Option ℚ
  passMetadataByPassProductId : List (String × PassMeta)
deriving DecidableEq, Repr

namespace XboxStoreParser

/-- The fixed tier-product decryption table (`get_availabilities`, lines 52-62). -/
def decryption (productId : String) : Option String :=
  if productId = "CFQ7TTC0K5DJ" then some "Essential"
  else if productId = "CFQ7TTC0KHS0" then some "Ultimate"
  else if productId = "CFQ7TTC0K6L8" then some "Console"
  else if productId = "CFQ7TTC0KGQ8" then some "PC"
  else if productId = "CFQ7TTC0P85B" then some "Premium"
  else if productId = "CFQ7TTC0QH5H" then some "Ubisoft+ Premium"
  else if productId = "nakuconsole" then some "Ubisoft+ Classics"
  else if productId = "nakupcgce" then some "Ubisoft+ Classics PC"
  else if productId = "CFQ7TTC0K5DH" then some "EA Play"
  else none

/-- One `{"added": .., "removed": ..}` dict value. -/
structure Avail where
  added : Option String
  removed : Option String
deriving DecidableEq, Repr

/-- The mutable `result` dict.  Python dict values are object references:
after `result["EA Play"] = result["Ultimate"]` both keys share one dict, and
the later in-place mutation `result["Ultimate"]["added"] = ...` is visible
under both.  We model this with `names` (insertion-ordered key → cell index)
over a heap of `cells`. -/
structure ResState where
  names : List (String × Nat)
  cells : List Avail
deriving DecidableEq, Repr

/-- `name in result`. -/
def ResState.hasKey (r : ResState) (k : String) : Bool :=
  (alistGet k r.names).isSome

/-- The dict currently bound to `k` (aliasing resolved through the heap). -/
def ResState.get (r : ResState) (k : String) : Option Avail :=
  (alistGet k r.names).map (fun i => r.cells.getD i ⟨none, none⟩)

/-- `result[k] = {...}` with a fresh dict value. -/
def ResState.putFresh (r : ResState) (k : String) (a : Avail) : ResState :=
  { names := alistSet k r.cells.length r.names, cells := r.cells ++ [a] }

/-- `result[k] = result[k']`: bind `k` to the same object as `k'`
(no-op if `k'` is absent, which never happens where this is used). -/
def ResState.alias (r : ResState) (k k' : String) : ResState :=
  match alistGet k' r.names with
  | some i => { r with names := alistSet k i r.names }
  | none => r

/-- In-place `result[k]["added"] = v`. -/
def ResState.setAdded (r : ResState) (k : String) (v : String) : ResState :=
  match alistGet k r.names with
  | some i =>
    { r with cells :=
        r.cells.set i { (r.cells.getD i ⟨none, none⟩) with added := some v } }
  | none => r

/-- `added = added.split("T")[0] if added else added` (`""` is falsy and kept). -/
def truncDate : Option String → Option String
  | none => none
  | some s => if s = "" then some s else some ⟨beforeFirst 'T' s.toList⟩

/-- The decode loop (`get_availabilities`, lines 64-76): translate known
product ids, truncate timestamps to the date part, drop unknown ids. -/
def decodePhase (entries : List (String × PassMeta)) : ResState :=
  entries.foldl
    (fun r (e : String × PassMeta) =>
      match decryption e.1 with
      | some name =>
        r.putFresh name ⟨truncDate e.2.entryDateUTC, truncDate e.2.exitDateUTC⟩
      | none => r)
    ⟨[], []⟩

/-- The Electronic-Arts equivalence rules (lines 78-89), applied in source
order; the synthesized keys share the source key's dict object. -/
def eaPhase (publisherName : Option String) (platforms : List String)
    (r : ResState) : ResState :=
  if publisherName = some "Electronic Arts" then
    let r1 := if r.hasKey "Ultimate" && !(r.hasKey "EA Play")
              then r.alias "EA Play" "Ultimate" else r
    let r2 := if r1.hasKey "EA Play" && !(r1.hasKey "Ultimate")
              then r1.alias "Ultimate" "EA Play" else r1
    if !(r2.hasKey "PC") && r2.hasKey "EA Play" && platforms.contains "pc"
    then r2.alias "PC" "EA Play" else r2
  else r

/-- `data.get("added")` truthiness: present and not the empty string. -/
def truthyAdded (a : Avail) : Bool :=
  match a.added with
  | some s => s ≠ ""
  | none => false

/-- The `added_dates` comprehension (lines 92-96): parse every truthy `added`
over `result.values()` in insertion order (aliased dicts appear once per key,
exactly as `values()` yields them); the first `strptime` failure raises. -/
def addedDates (r : ResState) : Except String (List PyDate) :=
  r.names.foldl
    (fun acc (e : String × Nat) => do
      let ds ← acc
      let c := r.cells.getD e.2 ⟨none, none⟩
      if truthyAdded c then
        match c.added with
        | some s => do
          let d ← strptimeYMD s
          pure (ds ++ [d])
        | none => pure ds
      else pure ds)
    (.ok [])

/-- The Ultimate clamp (lines 98-109): if any `added` dates were collected and
"Ultimate" is present, pull Ultimate's `added` back to the earliest date when
it is strictly later; a `ValueError` from Ultimate's own parse is swallowed by
the inner `except` (unreachable here, since the comprehension already parsed
that same string).  A comprehension failure propagates. -/
def clampPhase (r : ResState) : Except String ResState :=
  match addedDates r with
  | .error e => .error e
  | .ok [] => .ok r
  | .ok (d0 :: rest) =>
    if r.hasKey "Ultimate" then
      let oldest := minDate d0 rest
      match r.get "Ultimate" with
      | some c =>
        if truthyAdded c then
          match c.added with
          | some s =>
            match strptimeYMD s with
            | .ok ud =>
              if PyDate.lt oldest ud then
                .ok (r.setAdded "Ultimate" (strftimeYMD oldest))
              else .ok r
            | .error _ => .ok r
          | none => .ok r
        else .ok r
      | none => .ok r
    else .ok r

/-- A value of the returned dict: tier dicts plus the possible `"error"`
string. -/
inductive OutVal
  | avail (a : Avail)
  | err (s : String)
deriving DecidableEq, Repr

/-- Read the final `result` out as an insertion-ordered association list. -/
def resolve (r : ResState) : List (String × OutVal) :=
  r.names.map (fun e => (e.1, .avail (r.cells.getD e.2 ⟨none, none⟩)))

/-- The result dict after the EA phase, before the clamp. -/
def eaState (sd : StoreData) : ResState :=
  eaPhase sd.publisherName sd.availableOn
    (decodePhase sd.passMetadataByPassProductId)

/-- `XboxStoreParser.get_availabilities` (lines 51-114).  In the typed model
the only raising operation is `strptime`; when it raises, the handler appends
`result["error"] = str(e)` to the dict as mutated so far (the decode and EA
phases have completed, the clamp has not yet written). -/
def get_availabilities (sd : StoreData) : List (String × OutVal) :=
  let r := eaState sd
  match clampPhase r with
  | .ok r' => resolve r'
  | .error e => resolve r ++ [("error", .err e)]

/-- `XboxStoreParser.get_release_date` (lines 33-36): the date part is
computed into the local `release_date`, but the function body has no `return`
statement, so it falls through and yields `None`. -/
def get_release_date (sd : StoreData) : Option String :=
  match sd.releaseDate with
  | some rd => (fun (_dropped : String) => none) ⟨beforeFirst 'T' rd.toList⟩
  | none => none

def get_platforms (sd : StoreData) : List String := sd.availableOn

def get_store_title (sd : StoreData) : Option String := sd.title

def get_publisher (sd : StoreData) : Option String := sd.publisherName

def get_developer (sd : StoreData) (publisher : Option String) : Option String :=
  match sd.developerName with
  | some d => if d = "" then publisher else some d
  | none => publisher

/-- `determine_free_to_play`: `msrp == 0` when a price is present, else the
manual flag. -/
def determine_free_to_play (sd : StoreData) (manualFlag : Bool) : Bool :=
  match sd.msrp with
  | some p => p = 0
  | none => manualFlag

/-- The dict produced by `XboxStoreParser.to_dict` (lines 116-128). -/
structure ParsedStore where
  store_title : Option String
  platforms : List String
  release_date : Option String
  availabilities : List (String × OutVal)
  capabilities : List String
  categories : List String
  publisher : Option String
  developer : Option String
  f2p : Bool
deriving DecidableEq, Repr

def to_dict (sd : StoreData) (manualF2pFlag : Bool) : ParsedStore :=
  { store_title := get_store_title sd
    platforms := get_platforms sd
    release_date := get_release_date sd
    availabilities := get_availabilities sd
    capabilities := sd.capabilities
    categories := sd.categories
    publisher := get_publisher sd
    developer := get_developer sd (get_publisher sd)
    f2p := determine_free_to_play sd manualF2pFlag }

/-- Well-formedness of the heap: every bound cell index is in range. -/
def ResState.WF (r : ResState) : Prop :=
  ∀ p ∈ r.names, p.2 < r.cells.length

/-- The claim C1 example: Ultimate entered `2023-03-01`, Essential
`2023-01-01`. -/
def sdC1ex : StoreData :=
  { title := none, publisherName := none, developerName := none,
    availableOn := [], categories := [], capabilities := [],
    releaseDate := none, msrp := none,
    passMetadataByPassProductId :=
      [("CFQ7TTC0KHS0", ⟨some "2023-03-01", none⟩),
       ("CFQ7TTC0K5DJ", ⟨some "2023-01-01", none⟩)] }

/-- The claim C2 example: publisher Electronic Arts, platforms include `pc`,
only Ultimate present with `added = "2023-01-01"`, `removed = null`. -/
def sdC2ex : StoreData :=
  { title := none, publisherName := some "Electronic Arts",
    developerName := none, availableOn := ["pc", "xbox"], categories := [],
    capabilities := [], releaseDate := none, msrp := none,
    passMetadataByPassProductId :=
      [("CFQ7TTC0KHS0", ⟨some "2023-01-01", none⟩)] }

/-- The C5 counterexample input: Essential decodes cleanly, Ultimate carries a
malformed entry date, so the `added_dates` comprehension raises `ValueError`
after two tiers are already in `result`. -/
def sdC5ex : StoreData :=
  { title := none, publisherName := none, developerName := none,
    availableOn := [], categories := [], capabilities := [],
    releaseDate := none, msrp := none,
    passMetadataByPassProductId :=
      [("CFQ7TTC0K5DJ", ⟨some "2023-01-01", none⟩),
       ("CFQ7TTC0KHS0", ⟨some "oops", none⟩)] }

end XboxStoreParser

/-- The storefront document of the C4 example: `releaseDate` is
`"2023-05-01T00:00:00Z"`. -/
def c4Doc : StoreData :=
  { title := some "Some Game", publisherName := none, developerName := none,
    availableOn := [], categories := [], capabilities := [],
    releaseDate := some "2023-05-01T00:00:00Z", msrp := none,
    passMetadataByPassProductId := [] }

/-! ## `src/utils/igdb_best_match.py` — fuzzy title matching

`rapidfuzz.fuzz.ratio` is the normalized Indel similarity scaled to 0-100:
`100 * (1 - dist/(|a|+|b|))` with `dist = |a| + |b| - 2 * lcs a b`, i.e.
`200 * lcs a b / (|a| + |b|)`, and `100` when both strings are empty.
Floats are modelled as exact rationals. -/

/-- One step of the longest-common-subsequence recursion: `lcsStep a f bs`
computes `lcs (a :: as) bs` given `f = lcs as` (structured this way so both
recursions are structural and kernel-reducible). -/
def lcsStep (a : Char) (f : List Char → Nat) : List Char → Nat
  | [] => 0
  | b :: bs => if a = b then 1 + f bs else max (f (b :: bs)) (lcsStep a f bs)

/-- Length of a longest common subsequence. -/
def lcs : List Char → List Char → Nat
  | [], _ => 0
  | a :: as, bs => lcsStep a (lcs as) bs

/-- `rapidfuzz.fuzz.ratio`. -/
def fuzzRatio (a b : List Char) : ℚ :=
  if a.length + b.length = 0 then 100
  else (200 * lcs a b : ℚ) / ((a.length : ℚ) + (b.length : ℚ))

/-- Python `\w` (ASCII part). -/
def isWordChar (c : Char) : Bool :=
  ('a' ≤ c && c ≤ 'z') || ('A' ≤ c && c ≤ 'Z') || isDigitChar c || c = '_'

def wordAt (s : List Char) (i : Nat) : Bool :=
  match s.get? i with
  | some c => isWordChar c
  | none => false

/-- Python `\b`: the two sides of position `i` differ in word-character-ness
(out of bounds counts as non-word). -/
def boundaryAt (s : List Char) (i : Nat) : Bool :=
  (if i = 0 then false else wordAt s (i - 1)) != wordAt s i

def sublistAt (pat s : List Char) (i : Nat) : Bool :=
  (s.drop i).take pat.length = pat

/-- `re.search(rf"\b{re.escape(query)}\b", s)` succeeds: the (escaped, hence
literal) query occurs at some position with word boundaries on both sides. -/
def wholeWordMatch (pat s : List Char) : Bool :=
  (List.range (s.length + 1)).any
    (fun i => sublistAt pat s i && boundaryAt s i && boundaryAt s (i + pat.length))

/-- `title_similarity` (lines 107-123).  Note: Python raises
`ZeroDivisionError` when the lowered-stripped candidate is empty; Lean's
`x / 0 = 0` convention stands in for that unreachable branch, and theorems
about this definition carry a non-emptiness hypothesis instead. -/
def title_similarity (query candidate : String) : ℚ :=
  let query_l := stripChars (lowerChars query.toList)
  let cand_l := stripChars (lowerChars candidate.toList)
  let base := fuzzRatio query_l cand_l
  let base := if wholeWordMatch query_l cand_l then base + 10 else base
  let ratio : ℚ := (query_l.length : ℚ) / (cand_l.length : ℚ)
  let base := if ratio < 1 / 2 then base * (ratio + 1 / 2) else base
  min base 100

/-! ### `clean_title` and `PLATFORM_PATTERN`

The source file's two character classes literally contain the mojibake
characters present in its bytes: `r"[¬Æ‚Ñ¢¬©]"` and
`(\b|\s|[-‚Äì‚Äî()|:])`.  The pattern
`(\b|\s|[-‚Äì‚Äî()|:])(?:Xbox(?:\s(?:One|Series\sX\|S))?|PC|Windows)(\b|\s|[-‚Äì‚Äî()|:])`
is compiled with `re.IGNORECASE`; its backtracking search (ordered
alternation, greedy optional group) is implemented directly below. -/

/-- The glyph class removed first by `clean_title` (line 134). -/
def tmGlyph (c : Char) : Bool :=
  c = '¬' || c = 'Æ' || c = '‚' || c = 'Ñ' || c = '¢' || c = '©'

/-- The bracket class of groups 1 and 3, closed under `re.IGNORECASE`
case-pairing of its cased letters. -/
def dashClass (c : Char) : Bool :=
  c = '-' || c = '‚' || c = 'Ä' || c = 'ä' || c = 'ì' || c = 'Ì' ||
  c = 'î' || c = 'Î' || c = '(' || c = ')' || c = '|' || c = ':'

def spaceAt (s : List Char) (i : Nat) : Bool :=
  match s.get? i with
  | some c => pyIsSpace c
  | none => false

def classAt (s : List Char) (i : Nat) : Bool :=
  match s.get? i with
  | some c => dashClass c
  | none => false

/-- Case-insensitive literal match of `lit` (given lowercase) at `i`. -/
def litAt (s : List Char) (i : Nat) (lit : List Char) : Bool :=
  ((s.drop i).take lit.length).map asciiLower = lit

/-- Group 1 `(\b|\s|[-‚Äì‚Äî()|:])`: the amounts of input it can consume at
`i`, in the pattern's alternation order. -/
def g1Opts (s : List Char) (i : Nat) : List Nat :=
  (if boundaryAt s i then [0] else []) ++
  (if spaceAt s i then [1] else []) ++
  (if classAt s i then [1] else [])

/-- End positions of `(?:Xbox(?:\s(?:One|Series\sX\|S))?|PC|Windows)` starting
at `j`, in backtracking priority order (greedy optional suffix first). -/
def midEnds (s : List Char) (j : Nat) : List Nat :=
  (if litAt s j "xbox".toList then
    (if spaceAt s (j + 4) && litAt s (j + 5) "one".toList then [j + 8] else []) ++
    (if spaceAt s (j + 4) && litAt s (j + 5) "series".toList &&
        spaceAt s (j + 11) && litAt s (j + 12) "x|s".toList then [j + 15] else []) ++
    [j + 4]
  else []) ++
  (if litAt s j "pc".toList then [j + 2] else []) ++
  (if litAt s j "windows".toList then [j + 7] else [])

/-- Group 3: first alternative that matches decides the match end. -/
def g3End (s : List Char) (j : Nat) : Option Nat :=
  if boundaryAt s j then some j
  else if spaceAt s j then some (j + 1)
  else if classAt s j then some (j + 1)
  else none

/-- Leftmost-longest-per-backtracking match of the whole pattern starting
exactly at `i`; returns the end position. -/
def matchAt (s : List Char) (i : Nat) : Option Nat :=
  (g1Opts s i).findSome? (fun d =>
    (midEnds s (i + d)).findSome? (fun j2 => g3End s j2))

/-- `PLATFORM_PATTERN.sub(" ", s)`: scan left to right, replace each
non-overlapping match with a single space.  Every match consumes at least two
characters, so fuel `|s| + 1` never runs out. -/
def patSub (s : List Char) : Nat → Nat → List Char
  | _, 0 => []
  | i, fuel + 1 =>
    if i < s.length then
      match matchAt s i with
      | some j =>
        if i < j then ' ' :: patSub s j fuel
        else s.getD i ' ' :: patSub s (i + 1) fuel
      | none => s.getD i ' ' :: patSub s (i + 1) fuel
    else []

/-- Emit one maximal whitespace run for `re.sub(r"\s{2,}", " ", s)`: two or
more whitespace characters become one space, a single one is kept as it is. -/
def emitRun (run : List Char) : List Char :=
  if run.length ≥ 2 then [' '] else run

/-- Accumulate the current whitespace run (in reverse) while scanning. -/
def collapseWsAux (run : List Char) : List Char → List Char
  | [] => emitRun run.reverse
  | c :: rest =>
    if pyIsSpace c then collapseWsAux (c :: run) rest
    else emitRun run.reverse ++ c :: collapseWsAux [] rest

/-- `re.sub(r"\s{2,}", " ", s)`: collapse each run of two or more whitespace
characters into a single space (runs of one are kept as they are). -/
def collapseWs (l : List Char) : List Char := collapseWsAux [] l

/-- `clean_title` (lines 132-137). -/
def clean_title (title : String) : String :=
  let t1 := title.toList.filter (fun c => !tmGlyph c)
  let t2 := patSub t1 0 (t1.length + 1)
  ⟨stripChars (collapseWs t2)⟩

/-! ### Candidate scoring and selection (`_igdb_search_core`, lines 140-221)

The HTTP search is the external collaborator of spec §6; its decoded response
is the `data` parameter: up to 15 candidate summaries. -/

structure IgdbCandidate where
  id : Nat
  name : String
  first_release_date : Option Int
  platforms : List String
deriving DecidableEq, Repr

/-- `datetime.fromtimestamp(c["first_release_date"], timezone.utc).year if
c.get("first_release_date") else None` — a timestamp of `0` is falsy. -/
def igdbYear (c : IgdbCandidate) : Option Int :=
  match c.first_release_date with
  | some ts => if ts ≠ 0 then some (yearOfTimestamp ts) else none
  | none => none

/-- The `year_score` conditional (lines 184-192), with Python truthiness of
the integer years (`0` is falsy). -/
def yearScore (releaseYear igdbY : Option Int) : ℚ :=
  match releaseYear with
  | some ry =>
    if ry ≠ 0 then
      if igdbY = some ry then 20
      else
        match igdbY with
        | some iy => if iy ≠ 0 && (iy - ry).natAbs ≤ 1 then 10 else 0
        | none => 0
    else 0
  | none => 0

def targetPlatforms : List String :=
  ["PC (Microsoft Windows)", "Xbox One", "Xbox Series X|S", "Xbox 360"]

/-- `platform_score` (line 197) — computed by the source but deliberately not
added into the total (line 199). -/
def platform_score (c : IgdbCandidate) : ℚ :=
  if c.platforms.any (fun p => targetPlatforms.contains p) then 15 else 0

/-- `total = fuzz_score + year_score` for one candidate (lines 177-199):
the candidate's name is cleaned, the query `title` is passed as given. -/
def totalScore (title : String) (releaseYear : Option Int)
    (c : IgdbCandidate) : ℚ :=
  title_similarity title (clean_title c.name) + yearScore releaseYear (igdbYear c)

/-- One iteration of the selection loop (lines 199-203): a strictly greater
total replaces the current best. -/
def selectStep (title : String) (releaseYear : Option Int)
    (acc : Option IgdbCandidate × ℚ) (c : IgdbCandidate) :
    Option IgdbCandidate × ℚ :=
  let total := totalScore title releaseYear c
  if acc.2 < total then (some c, total) else acc

/-- The selection loop (lines 172-203): strictly greater replaces, so the
first-seen candidate wins ties; `best` starts as `None` with score `0`. -/
def selectBest (title : String) (releaseYear : Option Int)
    (data : List IgdbCandidate) : Option IgdbCandidate × ℚ :=
  data.foldl (selectStep title releaseYear) (none, 0)

/-- `_igdb_search_core` (lines 140-221) restricted to its pure core: an empty
response returns `(None, 0)`; otherwise the loop winner's id is returned when
its score reaches 80, together with the best score. -/
def igdb_search_core (title : String) (releaseDate : Option PyDate)
    (data : List IgdbCandidate) : Option Nat × ℚ :=
  if data = [] then (none, 0)
  else
    let releaseYear : Option Int := releaseDate.map (fun d => (d.year : Int))
    match selectBest title releaseYear data with
    | (some c, s) => (if 80 ≤ s then some c.id else none, s)
    | (none, _) => (none, 0)

/-- `search_igdb_best` (lines 224-238): clean the title, run the core search,
and return the id only when it is truthy (`if igdb_id:` — id `0` is falsy). -/
def search_igdb_best (title : String) (releaseDate : Option PyDate)
    (data : List IgdbCandidate) : Option Nat :=
  let cleaned_title := clean_title title
  match igdb_search_core cleaned_title releaseDate data with
  | (some i, _) => if i ≠ 0 then some i else none
  | (none, _) => none

/-! ## `src/utils/json_maker.py` — `JSONMaker`

`group_skus_by_platform` (lines 63-79) and the per-SKU skip/write loop of
`compose_jsons` (lines 90-155). -/

/-- Python `str` comparison: lexicographic on code points (`≤`). -/
def charsLe : List Char → List Char → Bool
  | [], _ => true
  | _ :: _, [] => false
  | a :: as, b :: bs =>
    if a.toNat < b.toNat then true
    else if b.toNat < a.toNat then false
    else charsLe as bs

def strLe (a b : String) : Bool := charsLe a.toList b.toList

/-- Stable insertion relative to a boolean `≤`: insert before the first
element that is not strictly smaller. -/
def insertBy {α : Type} (le : α → α → Bool) (x : α) : List α → List α
  | [] => [x]
  | y :: ys => if le x y then x :: y :: ys else y :: insertBy le x ys

/-- Python `sorted` (modelled by insertion sort; Python's sort is stable, and
every comparison key in scope is distinct across elements). -/
def sortBy {α : Type} (le : α → α → Bool) (l : List α) : List α :=
  l.foldr (insertBy le) []

def sortStrings (l : List String) : List String := sortBy strLe l

/-- `frozenset(p.lower() for p in platforms if p.lower() != "xcloud")`,
canonicalized as a `Finset` (Python `frozenset` equality is set equality). -/
def platformKey (platforms : List String) : Finset String :=
  ((platforms.map (fun p => (⟨lowerChars p.toList⟩ : String))).filter
    (fun p => p ≠ "xcloud")).toFinset

/-- `groups[key].append(sku)` over a `defaultdict(list)`: append to the group
of `key`, creating it at the end on first sight (dict insertion order). -/
def addSku (key : Finset String) (sku : String) :
    List (Finset String × List String) → List (Finset String × List String)
  | [] => [(key, [sku])]
  | (k, g) :: rest =>
    if k = key then (k, g ++ [sku]) :: rest else (k, g) :: addSku key sku rest

/-- `sorted(x[1])[0]`: the lexicographically smallest member of a group. -/
def groupKey (g : List String) : String := (sortStrings g).headD ""

/-- The grouping loop (lines 71-73): `groups[key].append(sku)` over the
input's insertion order. -/
def buildGroups (sku_platforms : List (String × List String)) :
    List (Finset String × List String) :=
  sku_platforms.foldl (fun gs e => addSku (platformKey e.2) e.1 gs) []

/-- `JSONMaker.group_skus_by_platform` (lines 63-79): bucket SKUs by their
normalized platform set, sort the buckets by smallest member, sort each bucket
alphabetically.  A pure function of its argument. -/
def group_skus_by_platform (sku_platforms : List (String × List String)) :
    List (List String) :=
  let groups := buildGroups sku_platforms
  (sortBy (fun g1 g2 => strLe (groupKey g1.2) (groupKey g2.2)) groups).map
    (fun g => sortStrings g.2)

/-- The record-writing loop of `compose_jsons` (lines 97-153).  The record
store `mnt/xbox/gp_new/{pid}.json` is the association list keyed by `pid`;
`build` abstracts the per-SKU fetch/parse/match/assemble work (lines 101-147),
which depends only on external collaborators and the fixed row.  The second
component counts record writes.  `os.path.exists` → skip; otherwise the
assembled record is written at the SKU's path. -/
def compose_jsons {α : Type} (build : String → α) (pids : List String)
    (fs : List (String × α)) : List (String × α) × Nat :=
  pids.foldl
    (fun acc pid =>
      match alistGet pid acc.1 with
      | some _ => acc
      | none => (acc.1 ++ [(pid, build pid)], acc.2 + 1))
    (fs, 0)

/-- Membership in some group. -/
def GMem (s : String) (k : Finset String)
    (gs : List (Finset String × List String)) : Prop :=
  ∃ g, (k, g) ∈ gs ∧ s ∈ g

/-! ## `src/flask_for_json.py` `save` (basic_info tab) and
`src/utils/igdb_updater.py` `update_igdb`

`NormalizedSkuRecord` as composed by `compose_jsons` (lines 116-147 of
`src/utils/json_maker.py`); the two IGDB metadata blocks are opaque payloads
of a type parameter `Ig` (their inner structure is irrelevant to the
record-store effects verified here). -/

structure BasicInfo where
  base_id : Option Int
  specific_id : Option Int
  title : Option String
  store_title : Option String
  pid : String
  alternate_xbox_id : Option Int
  related_skus : List String
  sku_groups : List (List String)
  original_release_date : Option String
  release_date : Option String
  platforms : List String
deriving DecidableEq, Repr

structure RecFlags where
  indie : Bool
  first_party : Bool
  f2p : Bool
deriving DecidableEq, Repr

structure XboxStoreMeta where
  capabilities : List String
  categories : List String
  publisher : Option String
  developer : Option String
deriving DecidableEq, Repr

structure IgdbMeta (Ig : Type) where
  main : Ig
  specific : Ig
deriving DecidableEq, Repr

structure GameRecord (Ig : Type) where
  basic_info : BasicInfo
  availabilities : List (List (String × XboxStoreParser.OutVal))
  flags : RecFlags
  xbox_store_meta : XboxStoreMeta
  igdb_meta : IgdbMeta Ig
deriving DecidableEq, Repr

/-- The record store `mnt/xbox/gp_new/` keyed by SKU id. -/
def RecordStore (Ig : Type) : Type := List (String × GameRecord Ig)

/-- The `basic_info`-tab request body (`updates`): a field is `some` when the
key is present in the posted JSON. -/
structure BasicInfoUpdates where
  base_id : Option Int
  title : Option String
  original_release_date : Option String
  release_date : Option String
  platforms : Option (List String)
  specific_id : Option Int
deriving DecidableEq, Repr

/-- Lines 208-220 of `src/flask_for_json.py`: apply every present field to the
record's own `basic_info` (the three propagating fields and the three
non-propagating ones). -/
def applyBasicUpdates (u : BasicInfoUpdates) (bi : BasicInfo) : BasicInfo :=
  let bi := match u.base_id with
    | some v => { bi with base_id := some v } | none => bi
  let bi := match u.title with
    | some v => { bi with title := some v } | none => bi
  let bi := match u.original_release_date with
    | some v => { bi with original_release_date := some v } | none => bi
  let bi := match u.release_date with
    | some v => { bi with release_date := some v } | none => bi
  let bi := match u.platforms with
    | some v => { bi with platforms := v } | none => bi
  match u.specific_id with
    | some v => { bi with specific_id := some v } | none => bi

/-- Lines 232-233: apply only `propagate_data` (the present propagating
fields) to a sibling's `basic_info`. -/
def applyPropagate (u : BasicInfoUpdates) (bi : BasicInfo) : BasicInfo :=
  let bi := match u.base_id with
    | some v => { bi with base_id := some v } | none => bi
  let bi := match u.title with
    | some v => { bi with title := some v } | none => bi
  match u.original_release_date with
    | some v => { bi with original_release_date := some v } | none => bi

/-- One iteration of the propagation loop (lines 228-234): skip the record
itself, skip unloadable siblings, write the propagated fields otherwise. -/
def propagateStep {Ig : Type} (u : BasicInfoUpdates) (pid : String)
    (acc : RecordStore Ig) (sku : String) : RecordStore Ig :=
  if sku ≠ pid then
    match alistGet sku acc with
    | some sd =>
      alistSet sku { sd with basic_info := applyPropagate u sd.basic_info } acc
    | none => acc
  else acc

/-- `save` for `tab == "basic_info"` (lines 196-234): load the record (404 →
no write), apply the updates, save, then — when any propagating field was
present — write the propagated fields into each loadable sibling listed in
`related_skus` (skipping the record itself).  `"related_skus" in basic_info`
always holds for records of the composed shape. -/
def save_basic_info {Ig : Type} (fs : RecordStore Ig) (pid : String)
    (u : BasicInfoUpdates) : RecordStore Ig :=
  match alistGet pid fs with
  | none => fs
  | some data =>
    let bi := applyBasicUpdates u data.basic_info
    let fs1 := alistSet pid { data with basic_info := bi } fs
    let hasPropagate :=
      u.base_id.isSome || u.title.isSome || u.original_release_date.isSome
    if hasPropagate then
      bi.related_skus.foldl (propagateStep u pid) fs1
    else fs1

/-- `update_igdb` (`src/utils/igdb_updater.py`, lines 6-18): read the one
record (a missing file raises `FileNotFoundError`, modelled as `none`), set
`igdb_meta.main`/`basic_info.base_id` (or the `specific` pair), write it
back.  `processed` is the parsed IGDB payload for `id`. -/
def update_igdb {Ig : Type} (fs : RecordStore Ig) (pid : String) (id : Int)
    (processed : Ig) (main_version : Bool) : Option (RecordStore Ig) :=
  match alistGet pid fs with
  | none => none
  | some all_data =>
    let all_data' :=
      if main_version then
        { all_data with
          igdb_meta := { all_data.igdb_meta with main := processed }
          basic_info := { all_data.basic_info with base_id := some id } }
      else
        { all_data with
          igdb_meta := { all_data.igdb_meta with specific := processed }
          basic_info := { all_data.basic_info with specific_id := some id } }
    some (alistSet pid all_data' fs)

/-- A two-record store used as the C10 witness input. -/
def recX : GameRecord String :=
  { basic_info :=
      { base_id := some 1, specific_id := none, title := some "T",
        store_title := none, pid := "X", alternate_xbox_id := none,
        related_skus := ["Y"], sku_groups := [],
        original_release_date := none, release_date := none, platforms := [] },
    availabilities := [], flags := ⟨false, false, false⟩,
    xbox_store_meta := ⟨[], [], none, none⟩,
    igdb_meta := ⟨"old-main", "old-spec"⟩ }

def recY : GameRecord String :=
  { basic_info :=
      { base_id := some 1, specific_id := none, title := some "T",
        store_title := none, pid := "Y", alternate_xbox_id := none,
        related_skus := ["X"], sku_groups := [],
        original_release_date := none, release_date := none, platforms := [] },
    availabilities := [], flags := ⟨false, false, false⟩,
    xbox_store_meta := ⟨[], [], none, none⟩,
    igdb_meta := ⟨"y-main", "y-spec"⟩ }

def fsC10 : RecordStore String := [("X", recX), ("Y", recY)]

/-- Three-record store for the C9 witness: `"X"` with siblings `["Y", "Z"]`. -/
def recXYZ (p : String) (sibs : List String) : GameRecord String :=
  { basic_info :=
      { base_id := some 1, specific_id := some 2, title := some "Old Title",
        store_title := some "Store", pid := p, alternate_xbox_id := none,
        related_skus := sibs, sku_groups := [[p]],
        original_release_date := some "2020-01-01",
        release_date := some "2020-01-02", platforms := ["pc"] },
    availabilities := [[("Ultimate", .avail ⟨some "2021-01-01", none⟩)]],
    flags := ⟨true, false, false⟩,
    xbox_store_meta := ⟨["cap"], ["cat"], some "Pub", some "Dev"⟩,
    igdb_meta := ⟨"main-" ++ p, "spec-" ++ p⟩ }

def recXYZ_X : GameRecord String := recXYZ "X" ["Y", "Z"]

def fsC9 : RecordStore String :=
  [("X", recXYZ_X), ("Y", recXYZ "Y" ["X", "Z"]), ("Z", recXYZ "Z" ["X", "Y"]),
   ("W", recXYZ "W" [])]

/-- A `basic_info` save request that changes only `title`. -/
def titleUpdate : BasicInfoUpdates :=
  { base_id := none, title := some "New Title", original_release_date := none,
    release_date := none, platforms := none, specific_id := none }

/-! ## Association-list lemmas -/

theorem alistGet_set_self {α : Type} (k : String) (v : α) (l : List (String × α)) :
    alistGet k (alistSet k v l) = some v := by
  induction l with
  | nil => simp [alistSet, alistGet]
  | cons p rest ih =>
    by_cases h : p.1 = k
    · simp [alistSet, alistGet, h]
    · simp [alistSet, alistGet, h, ih]

theorem alistGet_set_ne {α : Type} {k q : String} (v : α) (l : List (String × α))
    (h : q ≠ k) : alistGet q (alistSet k v l) = alistGet q l := by
  induction l with
  | nil =>
    simp only [alistSet, alistGet]
    rw [if_neg (fun hh => h hh.symm)]
  | cons p rest ih =>
    obtain ⟨pk, pv⟩ := p
    by_cases hp : pk = k
    · subst hp
      simp only [alistSet, alistGet, if_pos rfl]
      rw [if_neg (fun hh => h hh.symm), if_neg (fun hh => h hh.symm)]
    · simp only [alistSet, alistGet, if_neg hp]
      by_cases hq : pk = q
      · simp only [alistGet, if_pos hq]
      · simp only [alistGet, if_neg hq, ih]

theorem alistGet_append {α : Type} (k : String) (l1 l2 : List (String × α)) :
    alistGet k (l1 ++ l2) =
      match alistGet k l1 with
      | some v => some v
      | none => alistGet k l2 := by
  induction l1 with
  | nil => simp [alistGet]
  | cons p rest ih =>
    by_cases h : p.1 = k <;> simp [alistGet, h, ih]

/-! ## C4 — `get_release_date` -/

/-- C4: the claim says the release-date accessor returns the date part of the
raw `releaseDate` whenever present, and that the example document yields
`"2023-05-01"` in the composed record.  The code computes the date part into a
local variable but has no `return` statement (`get_release_date`, lines
33-36), so the accessor always yields `None` and the composed record's
`release_date` is `None`, not `"2023-05-01"`. -/
theorem c4_release_date_is_always_none :
    (∀ sd : StoreData, XboxStoreParser.get_release_date sd = none) ∧
    (XboxStoreParser.to_dict c4Doc false).release_date = none ∧
    (XboxStoreParser.to_dict c4Doc false).release_date ≠ some "2023-05-01" := by
  refine ⟨fun sd => ?_, by decide, by decide⟩
  unfold XboxStoreParser.get_release_date
  cases sd.releaseDate <;> rfl

/-! ## C7 — `compose_jsons` idempotency -/

theorem compose_fold_preserves {α : Type} (build : String → α)
    (pids : List String) (acc : List (String × α) × Nat) (pid : String) (r : α)
    (h : alistGet pid acc.1 = some r) :
    alistGet pid
      ((pids.foldl
        (fun acc pid =>
          match alistGet pid acc.1 with
          | some _ => acc
          | none => (acc.1 ++ [(pid, build pid)], acc.2 + 1)) acc)).1 = some r := by
  induction pids generalizing acc with
  | nil => simpa using h
  | cons p rest ih =>
    simp only [List.foldl_cons]
    rcases hp : alistGet p acc.1 with _ | v
    · apply ih
      simp only [alistGet_append, h]
    · exact ih _ h

theorem compose_fold_mem {α : Type} (build : String → α)
    (pids : List String) (acc : List (String × α) × Nat) (pid : String)
    (h : pid ∈ pids) :
    (alistGet pid
      ((pids.foldl
        (fun acc pid =>
          match alistGet pid acc.1 with
          | some _ => acc
          | none => (acc.1 ++ [(pid, build pid)], acc.2 + 1)) acc)).1).isSome := by
  induction pids generalizing acc with
  | nil => cases h
  | cons p rest ih =>
    simp only [List.foldl_cons]
    rcases List.mem_cons.mp h with rfl | hrest
    · rcases hp : alistGet pid acc.1 with _ | v
      · have : alistGet pid (acc.1 ++ [(pid, build pid)]) = some (build pid) := by
          simp [alistGet_append, hp, alistGet]
        by_cases hr : pid ∈ rest
        · exact ih _ hr
        · rw [compose_fold_preserves build rest _ pid _ this]
          rfl
      · rw [compose_fold_preserves build rest _ pid _ hp]
        rfl
    · exact ih _ hrest

theorem compose_fold_skip {α : Type} (build : String → α)
    (pids : List String) (fs : List (String × α))
    (h : ∀ pid ∈ pids, (alistGet pid fs).isSome) :
    (pids.foldl
      (fun acc pid =>
        match alistGet pid acc.1 with
        | some _ => acc
        | none => (acc.1 ++ [(pid, build pid)], acc.2 + 1)) (fs, 0)) = (fs, 0) := by
  induction pids with
  | nil => rfl
  | cons p rest ih =>
    have hp := h p (List.mem_cons_self p rest)
    simp only [List.foldl_cons]
    rcases hget : alistGet p fs with _ | v
    · rw [hget] at hp; cases hp
    · exact ih (fun q hq => h q (List.mem_cons_of_mem p hq))

/-- C7: composition is idempotent on the record store.  A SKU whose output
file exists is skipped and its stored record is never overwritten, and a
second run over the store produced by a first run performs zero record writes
and leaves the store unchanged. -/
theorem c7_compose_jsons_idempotent {α : Type} (build : String → α)
    (pids : List String) (fs : List (String × α)) :
    (∀ pid r, alistGet pid fs = some r →
       alistGet pid (compose_jsons build pids fs).1 = some r) ∧
    compose_jsons build pids (compose_jsons build pids fs).1 =
      ((compose_jsons build pids fs).1, 0) := by
  constructor
  · intro pid r h
    exact compose_fold_preserves build pids (fs, 0) pid r h
  · apply compose_fold_skip
    intro pid hp
    exact compose_fold_mem build pids (fs, 0) pid hp

/-- Witness for C7 at a concrete store: `"A"` already exists (with record
`5`), `"B"` does not; the first run keeps `"A"` intact, and a second run over
the result writes nothing. -/
theorem c7_witness :
    alistGet "A" (compose_jsons (fun _ => (0 : Nat)) ["A", "B"] [("A", 5)]).1
        = some 5 ∧
    compose_jsons (fun _ => (0 : Nat)) ["A", "B"]
        (compose_jsons (fun _ => (0 : Nat)) ["A", "B"] [("A", 5)]).1 =
      ((compose_jsons (fun _ => (0 : Nat)) ["A", "B"] [("A", 5)]).1, 0) :=
  ⟨(c7_compose_jsons_idempotent (fun _ => (0 : Nat)) ["A", "B"] [("A", 5)]).1
      "A" 5 (by decide),
   (c7_compose_jsons_idempotent (fun _ => (0 : Nat)) ["A", "B"] [("A", 5)]).2⟩

/-! ## C10 — `update_igdb` with `main_version=True` touches one record -/

/-- C10: `update_igdb pid id main_version=True` rewrites only the record of
`pid` — setting `igdb_meta.main` to the processed payload and
`basic_info.base_id` to the new id — and the record of every other SKU, in
particular every sibling in `related_skus`, is unchanged. -/
theorem c10_update_igdb_local {Ig : Type} (fs : RecordStore Ig) (pid : String)
    (id : Int) (processed : Ig) (r : GameRecord Ig)
    (h : alistGet pid fs = some r) :
    ∃ fs', update_igdb fs pid id processed true = some fs' ∧
      alistGet pid fs' = some
        { r with
          igdb_meta := { r.igdb_meta with main := processed }
          basic_info := { r.basic_info with base_id := some id } } ∧
      (∀ q, q ≠ pid → alistGet q fs' = alistGet q fs) ∧
      (∀ s ∈ r.basic_info.related_skus, s ≠ pid →
        alistGet s fs' = alistGet s fs) := by
  refine ⟨_, by rw [update_igdb, h], ?_, ?_, ?_⟩
  · exact alistGet_set_self _ _ _
  · intro q hq
    exact alistGet_set_ne _ _ hq
  · intro s _ hs
    exact alistGet_set_ne _ _ hs

/-- Witness for C10: updating `"X"` (whose sibling list is `["Y"]`) rewrites
`"X"` as specified and leaves every other record untouched. -/
theorem c10_witness :
    ∃ fs', update_igdb fsC10 "X" 77 "new-main" true = some fs' ∧
      alistGet "X" fs' = some
        { recX with
          igdb_meta := { recX.igdb_meta with main := "new-main" }
          basic_info := { recX.basic_info with base_id := some 77 } } ∧
      (∀ q, q ≠ "X" → alistGet q fs' = alistGet q fsC10) ∧
      (∀ s ∈ recX.basic_info.related_skus, s ≠ "X" →
        alistGet s fs' = alistGet s fsC10) :=
  c10_update_igdb_local fsC10 "X" 77 "new-main" recX (by decide)

/-! ## C9 — basic_info edit propagation -/

theorem applyPropagate_idem (u : BasicInfoUpdates) (bi : BasicInfo) :
    applyPropagate u (applyPropagate u bi) = applyPropagate u bi := by
  unfold applyPropagate
  rcases u.base_id with _ | b <;> rcases u.title with _ | t <;>
    rcases u.original_release_date with _ | o <;> simp

/-- The sibling-propagation fold of `save` (lines 227-234), characterized
pointwise: a SKU in `skus` other than `pid` whose record loads gets exactly
the propagated `basic_info` fields; every other key is untouched. -/
theorem propagate_fold_get {Ig : Type} (u : BasicInfoUpdates) (pid : String)
    (skus : List String) (fs : RecordStore Ig) (q : String) :
    alistGet q (skus.foldl (propagateStep u pid) fs) =
      if q ∈ skus ∧ q ≠ pid then
        (alistGet q fs).map
          (fun sd => { sd with basic_info := applyPropagate u sd.basic_info })
      else alistGet q fs := by
  induction skus generalizing fs with
  | nil => simp
  | cons s rest ih =>
    simp only [List.foldl_cons]
    by_cases hsp : s = pid
    · have hstep : propagateStep u pid fs s = fs := by
        unfold propagateStep
        rw [if_neg (fun h : s ≠ pid => h hsp)]
      rw [hstep, ih]
      subst hsp
      by_cases hq1 : q ∈ rest <;> by_cases hq2 : q = s <;>
        simp [List.mem_cons, hq1, hq2]
    · rcases hget : alistGet s fs with _ | sd
      · have hstep : propagateStep u pid fs s = fs := by
          unfold propagateStep
          rw [if_pos hsp, hget]
        rw [hstep, ih]
        by_cases hqs : q = s
        · subst hqs
          by_cases hq1 : q ∈ rest <;>
            simp [hget, List.mem_cons, hsp, hq1]
        · simp [List.mem_cons, hqs]
      · have hstep : propagateStep u pid fs s =
            alistSet s { sd with basic_info := applyPropagate u sd.basic_info } fs := by
          unfold propagateStep
          rw [if_pos hsp, hget]
        rw [hstep, ih]
        by_cases hqs : q = s
        · subst hqs
          by_cases hq1 : q ∈ rest <;>
            simp [alistGet_set_self, hget, List.mem_cons, hsp, hq1,
              applyPropagate_idem]
        · rw [alistGet_set_ne _ _ hqs]
          simp [List.mem_cons, hqs]

/-- C9: saving the `basic_info` tab with any of the propagating fields
(`base_id`, `title`, `original_release_date`) present writes exactly those
field values into the `basic_info` of every loadable sibling in
`related_skus`, leaves all other fields of each such sibling's record
unchanged, does not touch any SKU outside `{pid} ∪ related_skus`, and updates
the edited record itself with all present fields. -/
theorem c9_basic_info_propagates {Ig : Type} (fs : RecordStore Ig)
    (pid : String) (u : BasicInfoUpdates) (r : GameRecord Ig)
    (h : alistGet pid fs = some r)
    (hprop : u.base_id.isSome ∨ u.title.isSome ∨ u.original_release_date.isSome) :
    (∀ s, s ∈ r.basic_info.related_skus → s ≠ pid →
       ∀ rs, alistGet s fs = some rs →
         alistGet s (save_basic_info fs pid u) =
           some { rs with basic_info := applyPropagate u rs.basic_info }) ∧
    (∀ q, q ≠ pid → q ∉ r.basic_info.related_skus →
       alistGet q (save_basic_info fs pid u) = alistGet q fs) ∧
    alistGet pid (save_basic_info fs pid u) =
      some { r with basic_info := applyBasicUpdates u r.basic_info } := by
  have hbi : (applyBasicUpdates u r.basic_info).related_skus =
      r.basic_info.related_skus := by
    unfold applyBasicUpdates
    rcases u.base_id with _ | b <;> rcases u.title with _ | t <;>
      rcases u.original_release_date with _ | o <;>
      rcases u.release_date with _ | rd <;> rcases u.platforms with _ | p <;>
      rcases u.specific_id with _ | sp <;> simp
  have hasP : (u.base_id.isSome || u.title.isSome ||
      u.original_release_date.isSome) = true := by
    rcases hprop with hp | hp | hp <;> simp [hp]
  unfold save_basic_info
  rw [h]
  dsimp only
  rw [if_pos hasP]
  refine ⟨?_, ?_, ?_⟩
  · intro s hs hsp rs hrs
    rw [propagate_fold_get, hbi]
    have hcond : s ∈ r.basic_info.related_skus ∧ s ≠ pid := ⟨hs, hsp⟩
    rw [if_pos hcond, alistGet_set_ne _ _ hsp, hrs]
    rfl
  · intro q hq hqn
    rw [propagate_fold_get, hbi]
    have hcond : ¬(q ∈ r.basic_info.related_skus ∧ q ≠ pid) := fun hc => hqn hc.1
    rw [if_neg hcond, alistGet_set_ne _ _ hq]
  · rw [propagate_fold_get, hbi]
    have hcond : ¬(pid ∈ r.basic_info.related_skus ∧ pid ≠ pid) :=
      fun hc => hc.2 rfl
    rw [if_neg hcond, alistGet_set_self]

/-- Witness for C9: the claim's example — editing `title` on `"X"` whose
`related_skus = ["Y", "Z"]`... (store built from `recX` shapes). -/
theorem c9_witness :
    (∀ s, s ∈ (recXYZ_X.basic_info.related_skus) → s ≠ "X" →
       ∀ rs, alistGet s fsC9 = some rs →
         alistGet s (save_basic_info fsC9 "X" titleUpdate) =
           some { rs with basic_info := applyPropagate titleUpdate rs.basic_info }) ∧
    (∀ q, q ≠ "X" → q ∉ recXYZ_X.basic_info.related_skus →
       alistGet q (save_basic_info fsC9 "X" titleUpdate) = alistGet q fsC9) ∧
    alistGet "X" (save_basic_info fsC9 "X" titleUpdate) =
      some { recXYZ_X with
        basic_info := applyBasicUpdates titleUpdate recXYZ_X.basic_info } :=
  c9_basic_info_propagates fsC9 "X" titleUpdate recXYZ_X (by decide)
    (Or.inr (Or.inl (by decide)))

/-! ## ResState lemmas (availability dict with aliasing heap) -/

namespace XboxStoreParser

theorem alistGet_mem {α : Type} {k : String} {v : α} :
    ∀ {l : List (String × α)}, alistGet k l = some v → (k, v) ∈ l := by
  intro l
  induction l with
  | nil => intro h; cases h
  | cons p rest ih =>
    obtain ⟨pk, pv⟩ := p
    simp only [alistGet]
    by_cases hp : pk = k
    · subst hp
      rw [if_pos rfl]
      intro h
      cases h
      exact List.mem_cons_self _ _
    · rw [if_neg hp]
      intro h
      exact List.mem_cons_of_mem _ (ih h)

theorem mem_alistSet {α : Type} {k : String} {v : α} {p : String × α} :
    ∀ {l : List (String × α)}, p ∈ alistSet k v l → p = (k, v) ∨ p ∈ l := by
  intro l
  induction l with
  | nil => intro h; simpa [alistSet] using h
  | cons q rest ih =>
    obtain ⟨qk, qv⟩ := q
    simp only [alistSet]
    by_cases hq : qk = k
    · rw [if_pos hq]
      intro h
      rcases List.mem_cons.mp h with h1 | h1
      · exact Or.inl h1
      · exact Or.inr (List.mem_cons_of_mem _ h1)
    · rw [if_neg hq]
      intro h
      rcases List.mem_cons.mp h with h1 | h1
      · exact Or.inr (h1 ▸ List.mem_cons_self _ _)
      · rcases ih h1 with h2 | h2
        · exact Or.inl h2
        · exact Or.inr (List.mem_cons_of_mem _ h2)

theorem WF_empty : ResState.WF ⟨[], []⟩ := by
  intro p hp; cases hp

theorem WF_putFresh {r : ResState} (h : r.WF) (k : String) (a : Avail) :
    (r.putFresh k a).WF := by
  intro p hp
  simp only [ResState.putFresh] at hp ⊢
  rcases mem_alistSet hp with h1 | h1
  · subst h1; simp
  · have := h p h1
    simp only [List.length_append, List.length_cons, List.length_nil]
    omega

theorem WF_alias {r : ResState} (h : r.WF) (k k' : String) :
    (r.alias k k').WF := by
  unfold ResState.alias
  rcases hget : alistGet k' r.names with _ | i
  · exact h
  · intro p hp
    simp only at hp ⊢
    rcases mem_alistSet hp with h1 | h1
    · have hmem : (k', i) ∈ r.names := alistGet_mem hget
      have hlt := h (k', i) hmem
      subst h1
      exact hlt
    · exact h p h1

theorem WF_setAdded {r : ResState} (h : r.WF) (k v : String) :
    (r.setAdded k v).WF := by
  unfold ResState.setAdded
  rcases hget : alistGet k r.names with _ | i
  · exact h
  · intro p hp
    simp only [List.length_set] at hp ⊢
    exact h p hp

theorem WF_decodePhase (entries : List (String × PassMeta)) :
    (decodePhase entries).WF := by
  unfold decodePhase
  have : ∀ (l : List (String × PassMeta)) (r : ResState), r.WF →
      (l.foldl (fun r e =>
        match decryption e.1 with
        | some name =>
          r.putFresh name ⟨truncDate e.2.entryDateUTC, truncDate e.2.exitDateUTC⟩
        | none => r) r).WF := by
    intro l
    induction l with
    | nil => intro r hr; exact hr
    | cons e rest ih =>
      intro r hr
      simp only [List.foldl_cons]
      rcases hdec : decryption e.1 with _ | name
      · exact ih r hr
      · exact ih _ (WF_putFresh hr _ _)
  exact this _ _ WF_empty

theorem WF_eaPhase {r : ResState} (h : r.WF) (pub : Option String)
    (platforms : List String) : (eaPhase pub platforms r).WF := by
  unfold eaPhase
  by_cases hp : pub = some "Electronic Arts"
  · rw [if_pos hp]
    dsimp only
    split <;> split <;> split <;>
      solve
        | exact h
        | exact WF_alias h _ _
        | exact WF_alias (WF_alias h _ _) _ _
        | exact WF_alias (WF_alias (WF_alias h _ _) _ _) _ _
  · rw [if_neg hp]
    exact h

theorem WF_eaState (sd : StoreData) : (eaState sd).WF :=
  WF_eaPhase (WF_decodePhase _) _ _

theorem getD_set_self {α : Type} (d x : α) :
    ∀ (l : List α) (i : Nat), i < l.length → (l.set i x).getD i d = x := by
  intro l
  induction l with
  | nil => intro i h; cases h
  | cons a rest ih =>
    intro i h
    cases i with
    | zero => rfl
    | succ j =>
      simp only [List.set_cons_succ, List.getD_cons_succ]
      exact ih j (Nat.lt_of_succ_lt_succ h)

/-- Reading the final dict through `resolve` agrees with `ResState.get`. -/
theorem alistGet_resolve (r : ResState) (k : String) :
    alistGet k (resolve r) = (r.get k).map OutVal.avail := by
  unfold resolve ResState.get
  induction r.names with
  | nil => rfl
  | cons p rest ih =>
    obtain ⟨pk, i⟩ := p
    simp only [List.map_cons, alistGet]
    by_cases hp : pk = k
    · rw [if_pos hp, if_pos hp]
      rfl
    · rw [if_neg hp, if_neg hp]
      exact ih

theorem get_setAdded_self {r : ResState} (hwf : r.WF) {k : String} {av : Avail}
    (h : r.get k = some av) (v : String) :
    (r.setAdded k v).get k = some { av with added := some v } := by
  unfold ResState.setAdded
  unfold ResState.get at h ⊢
  rcases hget : alistGet k r.names with _ | i
  · rw [hget] at h; cases h
  · rw [hget] at h
    rw [Option.map_some'] at h
    have hi : i < r.cells.length := hwf _ (alistGet_mem hget)
    rw [hget, Option.map_some']
    dsimp only
    rw [getD_set_self _ _ _ _ hi]
    rw [Option.some_inj] at h
    rw [h]

theorem get_alias_ne (r : ResState) {q k : String} (k' : String) (h : q ≠ k) :
    (r.alias k k').get q = r.get q := by
  unfold ResState.alias ResState.get
  rcases hget : alistGet k' r.names with _ | i
  · rfl
  · simp only
    rw [alistGet_set_ne _ _ h]

theorem hasKey_alias_ne (r : ResState) {q k : String} (k' : String) (h : q ≠ k) :
    (r.alias k k').hasKey q = r.hasKey q := by
  unfold ResState.alias ResState.hasKey
  rcases hget : alistGet k' r.names with _ | i
  · rfl
  · simp only
    rw [alistGet_set_ne _ _ h]

theorem get_alias_self (r : ResState) (k k' : String)
    (h : (r.get k').isSome) : (r.alias k k').get k = r.get k' := by
  unfold ResState.alias ResState.get at *
  rcases hget : alistGet k' r.names with _ | i
  · rw [hget] at h; simp at h
  · dsimp only
    rw [alistGet_set_self]

theorem get_isSome_of_hasKey {r : ResState} {k : String}
    (h : r.hasKey k = true) : (r.get k).isSome := by
  unfold ResState.hasKey at h
  unfold ResState.get
  rcases hget : alistGet k r.names with _ | i
  · rw [hget] at h; cases h
  · rfl

theorem hasKey_of_get {r : ResState} {k : String} {av : Avail}
    (h : r.get k = some av) : r.hasKey k = true := by
  unfold ResState.get at h
  unfold ResState.hasKey
  rcases hget : alistGet k r.names with _ | i
  · rw [hget] at h; cases h
  · rfl

end XboxStoreParser

/-! ## C1, C2, C5 — availability reconciliation -/

namespace XboxStoreParser

/-- C1: whenever reconciliation succeeds (`added_dates` all parse) and the
"Ultimate" tier's `added` date is strictly later than the earliest `added`
date across all resolved tiers (computed after EA synthesis), the returned
table maps "Ultimate" to the earliest date (formatted back), with `removed`
untouched. -/
theorem c1_ultimate_clamped_to_earliest (sd : StoreData) (d0 : PyDate)
    (rest : List PyDate) (av : Avail) (s : String) (ud : PyDate)
    (hdates : addedDates (eaState sd) = .ok (d0 :: rest))
    (hget : (eaState sd).get "Ultimate" = some av)
    (hadded : av.added = some s) (hne : s ≠ "")
    (hparse : strptimeYMD s = .ok ud)
    (hlater : PyDate.lt (minDate d0 rest) ud = true) :
    alistGet "Ultimate" (get_availabilities sd) =
      some (.avail { added := some (strftimeYMD (minDate d0 rest)),
                     removed := av.removed }) := by
  have htr : truthyAdded av = true := by
    unfold truthyAdded
    rw [hadded]
    exact decide_eq_true hne
  have hclamp : clampPhase (eaState sd) =
      .ok ((eaState sd).setAdded "Ultimate" (strftimeYMD (minDate d0 rest))) := by
    unfold clampPhase
    rw [hdates]
    dsimp only
    rw [hasKey_of_get hget, if_pos rfl, hget]
    dsimp only
    rw [htr, if_pos rfl, hadded]
    dsimp only
    rw [hparse]
    dsimp only
    rw [hlater, if_pos rfl]
  unfold get_availabilities
  dsimp only
  rw [hclamp]
  dsimp only
  rw [alistGet_resolve, get_setAdded_self (WF_eaState sd) hget]
  rfl

/-- Witness for C1, at the claim's example input: the output's Ultimate
`added` is pulled back to `"2023-01-01"`. -/
theorem c1_witness :
    alistGet "Ultimate" (get_availabilities sdC1ex) =
      some (.avail { added := some "2023-01-01", removed := none }) :=
  (c1_ultimate_clamped_to_earliest sdC1ex ⟨2023, 3, 1⟩ [⟨2023, 1, 1⟩]
      ⟨some "2023-03-01", none⟩ "2023-03-01" ⟨2023, 3, 1⟩
      (by rfl) (by rfl) (by rfl) (by decide) (by rfl)
      (by decide)).trans (by decide)

/-- A one-branch conditional alias (the shape of the three EA rules). -/
theorem condAlias_get_ne {r : ResState} {k q : String} (k' : String)
    {b : Bool} (h : q ≠ k) :
    (if b then r.alias k k' else r).get q = r.get q := by
  by_cases hb : b = true
  · rw [if_pos hb]; exact get_alias_ne r k' h
  · rw [if_neg hb]

theorem condAlias_hasKey_ne {r : ResState} {k q : String} (k' : String)
    {b : Bool} (h : q ≠ k) :
    (if b then r.alias k k' else r).hasKey q = r.hasKey q := by
  by_cases hb : b = true
  · rw [if_pos hb]; exact hasKey_alias_ne r k' h
  · rw [if_neg hb]

/-- C2: the EA equivalence rules.  (i) With any non-"Electronic Arts"
publisher the phase is the identity.  With publisher "Electronic Arts":
(ii) if "Ultimate" is present and "EA Play" absent, "EA Play" is synthesized
equal to "Ultimate" (and "Ultimate" keeps its value); (iii) symmetrically when
only "EA Play" is present; (iv) if "EA Play" is present, "PC" absent, and
`"pc"` among the platforms, "PC" is synthesized equal to "EA Play".  Finally
the claim's example input yields Ultimate = EA Play = PC in the full output. -/
theorem c2_ea_equivalences :
    (∀ (pub : Option String) (platforms : List String) (r : ResState),
       pub ≠ some "Electronic Arts" → eaPhase pub platforms r = r) ∧
    (∀ (platforms : List String) (r : ResState),
       (r.hasKey "Ultimate" = true → r.hasKey "EA Play" = false →
         (eaPhase (some "Electronic Arts") platforms r).get "EA Play" =
             r.get "Ultimate" ∧
           (eaPhase (some "Electronic Arts") platforms r).get "Ultimate" =
             r.get "Ultimate") ∧
       (r.hasKey "EA Play" = true → r.hasKey "Ultimate" = false →
         (eaPhase (some "Electronic Arts") platforms r).get "Ultimate" =
             r.get "EA Play" ∧
           (eaPhase (some "Electronic Arts") platforms r).get "EA Play" =
             r.get "EA Play") ∧
       (r.hasKey "EA Play" = true → r.hasKey "PC" = false →
          platforms.contains "pc" = true →
         (eaPhase (some "Electronic Arts") platforms r).get "PC" =
           (eaPhase (some "Electronic Arts") platforms r).get "EA Play")) ∧
    get_availabilities sdC2ex =
      [("Ultimate", .avail ⟨some "2023-01-01", none⟩),
       ("EA Play", .avail ⟨some "2023-01-01", none⟩),
       ("PC", .avail ⟨some "2023-01-01", none⟩)] := by
  refine ⟨?_, ?_, by decide⟩
  · intro pub platforms r hpub
    unfold eaPhase
    rw [if_neg hpub]
  · intro platforms r
    refine ⟨?_, ?_, ?_⟩
    · intro hU hE
      unfold eaPhase
      rw [if_pos rfl]
      dsimp only
      have hc1 : (r.hasKey "Ultimate" && !r.hasKey "EA Play") = true := by
        rw [hU, hE]; rfl
      rw [if_pos hc1]
      have hUlt1 : (r.alias "EA Play" "Ultimate").hasKey "Ultimate" = true := by
        rw [hasKey_alias_ne r "Ultimate" (by decide)]; exact hU
      have hnc2 : ¬(((r.alias "EA Play" "Ultimate").hasKey "EA Play" &&
          !(r.alias "EA Play" "Ultimate").hasKey "Ultimate") = true) := by
        rw [hUlt1]; simp
      rw [if_neg hnc2]
      constructor
      · rw [condAlias_get_ne "EA Play" (by decide)]
        exact get_alias_self r "EA Play" "Ultimate" (get_isSome_of_hasKey hU)
      · rw [condAlias_get_ne "EA Play" (by decide)]
        exact get_alias_ne r "Ultimate" (by decide)
    · intro hE hU
      unfold eaPhase
      rw [if_pos rfl]
      dsimp only
      have hnc1 : ¬((r.hasKey "Ultimate" && !r.hasKey "EA Play") = true) := by
        rw [hU, hE]; simp
      rw [if_neg hnc1]
      have hc2 : (r.hasKey "EA Play" && !r.hasKey "Ultimate") = true := by
        rw [hU, hE]; rfl
      rw [if_pos hc2]
      constructor
      · rw [condAlias_get_ne "EA Play" (by decide)]
        exact get_alias_self r "Ultimate" "EA Play" (get_isSome_of_hasKey hE)
      · rw [condAlias_get_ne "EA Play" (by decide)]
        exact get_alias_ne r "EA Play" (by decide)
    · intro hE hPC hpc
      unfold eaPhase
      rw [if_pos rfl]
      dsimp only
      have hnc1 : ¬((r.hasKey "Ultimate" && !r.hasKey "EA Play") = true) := by
        rw [hE]; simp
      rw [if_neg hnc1]
      by_cases hU : r.hasKey "Ultimate" = true
      · have hnc2 : ¬((r.hasKey "EA Play" && !r.hasKey "Ultimate") = true) := by
          rw [hU]; simp
        rw [if_neg hnc2]
        have hc3 : (!r.hasKey "PC" && r.hasKey "EA Play" &&
            platforms.contains "pc") = true := by
          rw [hPC, hE, hpc]; rfl
        rw [if_pos hc3]
        rw [get_alias_self r "PC" "EA Play" (get_isSome_of_hasKey hE)]
        rw [get_alias_ne r "EA Play" (by decide)]
      · have hUf : r.hasKey "Ultimate" = false := by
          cases hv : r.hasKey "Ultimate"
          · rfl
          · exact absurd hv hU
        have hc2 : (r.hasKey "EA Play" && !r.hasKey "Ultimate") = true := by
          rw [hE, hUf]; rfl
        rw [if_pos hc2]
        have hE2 : (r.alias "Ultimate" "EA Play").hasKey "EA Play" = true := by
          rw [hasKey_alias_ne r "EA Play" (by decide)]; exact hE
        have hPC2 : (r.alias "Ultimate" "EA Play").hasKey "PC" = false := by
          rw [hasKey_alias_ne r "EA Play" (by decide)]; exact hPC
        have hc3 : (!(r.alias "Ultimate" "EA Play").hasKey "PC" &&
            (r.alias "Ultimate" "EA Play").hasKey "EA Play" &&
            platforms.contains "pc") = true := by
          rw [hPC2, hE2, hpc]; rfl
        rw [if_pos hc3]
        rw [get_alias_self _ "PC" "EA Play" (get_isSome_of_hasKey hE2)]
        rw [@get_alias_ne (r.alias "Ultimate" "EA Play") "EA Play" "PC"
          "EA Play" (by decide)]

/-- Witness for C2: rule (ii) discharged at the example's post-decode state
(only Ultimate present), rule (iv) at a state where only EA Play decoded. -/
theorem c2_witness :
    (eaPhase (some "Electronic Arts") ["pc", "xbox"]
        (decodePhase sdC2ex.passMetadataByPassProductId)).get "EA Play" =
      (decodePhase sdC2ex.passMetadataByPassProductId).get "Ultimate" ∧
    (eaPhase (some "Electronic Arts") ["pc"]
        (decodePhase [("CFQ7TTC0K5DH", ⟨some "2023-02-02", none⟩)])).get "PC" =
      (eaPhase (some "Electronic Arts") ["pc"]
        (decodePhase [("CFQ7TTC0K5DH", ⟨some "2023-02-02", none⟩)])).get "EA Play" :=
  ⟨((c2_ea_equivalences.2.1 ["pc", "xbox"]
      (decodePhase sdC2ex.passMetadataByPassProductId)).1
      (by decide) (by decide)).1,
   (c2_ea_equivalences.2.1 ["pc"]
      (decodePhase [("CFQ7TTC0K5DH", ⟨some "2023-02-02", none⟩)])).2.2
      (by decide) (by decide) (by decide)⟩

theorem alistGet_eq_none {α : Type} {k : String} :
    ∀ {l : List (String × α)}, (∀ p ∈ l, p.1 ≠ k) → alistGet k l = none := by
  intro l
  induction l with
  | nil => intro _; rfl
  | cons p rest ih =>
    obtain ⟨pk, pv⟩ := p
    intro h
    simp only [alistGet]
    rw [if_neg (h (pk, pv) (List.mem_cons_self _ _))]
    exact ih (fun q hq => h q (List.mem_cons_of_mem _ hq))

theorem decryption_ne_error {pid n : String} (h : decryption pid = some n) :
    n ≠ "error" := by
  unfold decryption at h
  split_ifs at h <;>
    first
      | (injection h with h2; subst h2; decide)
      | exact Option.noConfusion h

theorem decode_names_ne_error (entries : List (String × PassMeta)) :
    ∀ p ∈ (decodePhase entries).names, p.1 ≠ "error" := by
  unfold decodePhase
  have aux : ∀ (l : List (String × PassMeta)) (r : ResState),
      (∀ p ∈ r.names, p.1 ≠ "error") →
      ∀ p ∈ (l.foldl (fun r e =>
        match decryption e.1 with
        | some name =>
          r.putFresh name ⟨truncDate e.2.entryDateUTC, truncDate e.2.exitDateUTC⟩
        | none => r) r).names, p.1 ≠ "error" := by
    intro l
    induction l with
    | nil => intro r hr; exact hr
    | cons e rest ih =>
      intro r hr
      simp only [List.foldl_cons]
      rcases hdec : decryption e.1 with _ | name
      · exact ih r hr
      · refine ih _ ?_
        intro p hp
        rcases mem_alistSet hp with h1 | h1
        · rw [h1]
          exact decryption_ne_error hdec
        · exact hr p h1
  exact aux entries ⟨[], []⟩ (fun p hp => absurd hp (List.not_mem_nil p))

theorem alias_names_cases {r : ResState} {k k' : String} {p : String × Nat}
    (hp : p ∈ (r.alias k k').names) : p.1 = k ∨ p ∈ r.names := by
  unfold ResState.alias at hp
  rcases hget : alistGet k' r.names with _ | i <;> rw [hget] at hp <;>
    dsimp only at hp
  · exact Or.inr hp
  · rcases mem_alistSet hp with h1 | h1
    · rw [h1]
      exact Or.inl rfl
    · exact Or.inr h1

theorem condAlias_names_cases {r : ResState} {k k' : String} {b : Bool}
    {p : String × Nat} (hp : p ∈ (if b then r.alias k k' else r).names) :
    p.1 = k ∨ p ∈ r.names := by
  by_cases hb : b = true
  · rw [if_pos hb] at hp
    exact alias_names_cases hp
  · rw [if_neg hb] at hp
    exact Or.inr hp

theorem eaPhase_names_cases {pub : Option String} {platforms : List String}
    {r : ResState} {p : String × Nat}
    (hp : p ∈ (eaPhase pub platforms r).names) :
    p.1 = "PC" ∨ p.1 = "Ultimate" ∨ p.1 = "EA Play" ∨ p ∈ r.names := by
  unfold eaPhase at hp
  by_cases hpub : pub = some "Electronic Arts"
  · rw [if_pos hpub] at hp
    dsimp only at hp
    rcases condAlias_names_cases hp with h | h
    · exact Or.inl h
    · rcases condAlias_names_cases h with h2 | h2
      · exact Or.inr (Or.inl h2)
      · rcases condAlias_names_cases h2 with h3 | h3
        · exact Or.inr (Or.inr (Or.inl h3))
        · exact Or.inr (Or.inr (Or.inr h3))
  · rw [if_neg hpub] at hp
    exact Or.inr (Or.inr (Or.inr hp))

theorem eaState_names_ne_error (sd : StoreData) :
    ∀ p ∈ (eaState sd).names, p.1 ≠ "error" := by
  intro p hp
  rcases eaPhase_names_cases hp with h | h | h | h
  · rw [h]; decide
  · rw [h]; decide
  · rw [h]; decide
  · exact decode_names_ne_error _ p h

/-- C5 (amended): an exception inside reconciliation is not propagated; the
returned dict is the partially-built result as of the raise (all decoded tiers
plus any EA synthesis — the clamp has not yet written), with an `"error"` key
holding the message appended at the end; in particular the `"error"` key is
present with that message. -/
theorem c5_error_appended_to_partial_result (sd : StoreData) (e : String)
    (h : clampPhase (eaState sd) = .error e) :
    get_availabilities sd = resolve (eaState sd) ++ [("error", .err e)] ∧
    alistGet "error" (get_availabilities sd) = some (.err e) := by
  have h1 : get_availabilities sd = resolve (eaState sd) ++ [("error", .err e)] := by
    unfold get_availabilities
    dsimp only
    rw [h]
  refine ⟨h1, ?_⟩
  rw [h1, alistGet_append]
  have h2 : alistGet "error" (resolve (eaState sd)) = none := by
    apply alistGet_eq_none
    intro p hp
    unfold resolve at hp
    rcases List.mem_map.mp hp with ⟨q, hq, hq2⟩
    rw [← hq2]
    exact eaState_names_ne_error sd q hq
  rw [h2]
  simp [alistGet]

/-- Witness for C5's amended statement at the concrete failing input. -/
theorem c5_amended_witness :
    get_availabilities sdC5ex =
      resolve (eaState sdC5ex) ++
        [("error", .err "time data 'oops' does not match format '%Y-%m-%d'")] ∧
    alistGet "error" (get_availabilities sdC5ex) =
      some (.err "time data 'oops' does not match format '%Y-%m-%d'") :=
  c5_error_appended_to_partial_result sdC5ex
    "time data 'oops' does not match format '%Y-%m-%d'" (by rfl)

/-- Counterexample to C5 as stated: on `sdC5ex` an exception is raised during
reconciliation (`clampPhase` errors), yet the returned dict is *not* only the
`"error"` field — the tiers decoded before the failure ("Essential" and
"Ultimate") are still present. -/
theorem c5_counterexample :
    clampPhase (eaState sdC5ex) =
      .error "time data 'oops' does not match format '%Y-%m-%d'" ∧
    get_availabilities sdC5ex ≠
      [("error", .err "time data 'oops' does not match format '%Y-%m-%d'")] ∧
    alistGet "Essential" (get_availabilities sdC5ex) =
      some (.avail ⟨some "2023-01-01", none⟩) := by
  refine ⟨by rfl, ?_, by decide⟩
  intro hcontra
  have : alistGet "Essential" (get_availabilities sdC5ex) =
      some (.avail ⟨some "2023-01-01", none⟩) := by decide
  rw [hcontra] at this
  cases this

end XboxStoreParser

/-! ## C3 — candidate scoring bounds -/

theorem lcsStep_self (a : Char) (f : List Char → Nat) (l : List Char) :
    lcsStep a f (a :: l) = 1 + f l := by
  unfold lcsStep
  rw [if_pos rfl]

theorem lcs_self : ∀ l : List Char, lcs l l = l.length := by
  intro l
  induction l with
  | nil => rfl
  | cons a rest ih =>
    show lcsStep a (lcs rest) (a :: rest) = (a :: rest).length
    rw [lcsStep_self, ih, List.length_cons]
    omega

theorem fuzzRatio_self (l : List Char) : fuzzRatio l l = 100 := by
  unfold fuzzRatio
  by_cases h : l.length + l.length = 0
  · rw [if_pos h]
  · rw [if_neg h, lcs_self]
    have hn : (l.length : ℚ) ≠ 0 := by
      have : l.length ≠ 0 := by omega
      exact_mod_cast this
    have h2 : (l.length : ℚ) + l.length ≠ 0 := by
      intro hc
      apply hn
      linarith [hc]
    rw [div_eq_iff h2]
    push_cast
    ring

/-- Exact self-similarity: when the lowered-stripped string is nonempty (so
Python's length-ratio division is defined), `title_similarity x x = 100` —
the fuzzy ratio is 100, the possible +10 whole-word bonus is clamped away by
`min(_, 100)`, and the length penalty does not trigger. -/
theorem title_similarity_self (x : String)
    (hx : stripChars (lowerChars x.toList) ≠ []) :
    title_similarity x x = 100 := by
  unfold title_similarity
  dsimp only
  rw [fuzzRatio_self]
  have hn : ((stripChars (lowerChars x.toList)).length : ℚ) ≠ 0 := by
    have : (stripChars (lowerChars x.toList)).length ≠ 0 := by
      intro hc
      exact hx (List.length_eq_zero.mp hc)
    exact_mod_cast this
  rw [div_self hn]
  rw [if_neg (by norm_num : ¬((1 : ℚ) < 1 / 2))]
  by_cases hw : wholeWordMatch (stripChars (lowerChars x.toList))
      (stripChars (lowerChars x.toList)) = true
  · rw [if_pos hw]
    norm_num [min_def]
  · rw [if_neg hw]
    norm_num [min_def]

theorem yearScore_le_20 (ry iy : Option Int) : yearScore ry iy ≤ 20 := by
  unfold yearScore
  rcases ry with _ | y
  · norm_num
  · rcases iy with _ | z <;> dsimp only <;> split_ifs <;> norm_num

theorem yearScore_same (y : Int) (hy : y ≠ 0) :
    yearScore (some y) (some y) = 20 := by
  unfold yearScore
  dsimp only
  rw [if_pos hy, if_pos rfl]

/-- C3 (amended): every candidate's total score is at most 120 — the fuzzy
similarity (with whole-word bonus and length penalty) is clamped at 100, but
the release-year bonus of up to 20 is added *after* that clamp — and a
candidate whose cleaned name equals the cleaned query (nonempty once lowered
and stripped) with release year exactly equal to the target year scores
exactly 120, not 100. -/
theorem c3_total_score_bounds :
    (∀ (title : String) (ry : Option Int) (c : IgdbCandidate),
       totalScore title ry c ≤ 120) ∧
    (∀ (title : String) (y : Int) (c : IgdbCandidate),
       clean_title c.name = clean_title title →
       stripChars (lowerChars (clean_title title).toList) ≠ [] →
       y ≠ 0 → igdbYear c = some y →
       totalScore (clean_title title) (some y) c = 120) := by
  constructor
  · intro title ry c
    unfold totalScore
    have h1 : title_similarity title (clean_title c.name) ≤ 100 := by
      unfold title_similarity
      exact min_le_right _ _
    have h2 := yearScore_le_20 ry (igdbYear c)
    linarith
  · intro title y c hname hq hy hiy
    unfold totalScore
    rw [hname, title_similarity_self _ hq, hiy, yearScore_same y hy]
    norm_num

/-- Witness for the amended C3, at the exact-match example. -/
theorem c3_witness :
    totalScore (clean_title "Control") (some 2023)
      ⟨7, "Control", some 1672531200, []⟩ = 120 :=
  c3_total_score_bounds.2 "Control" 2023 ⟨7, "Control", some 1672531200, []⟩
    rfl (by decide) (by decide) (by rfl)

unseal Rat.add Rat.mul Rat.inv in
/-- Counterexample to C3 as stated ("total score is at most 100", "exact
match with matching year scores exactly 100"): the candidate named exactly
`"Control"` with release timestamp `1672531200` (2023-01-01 UTC) against the
cleaned query `"Control"` and target year 2023 totals 120 — it exceeds 100,
and 120 is also the best score the search loop reports. -/
theorem c3_counterexample :
    totalScore (clean_title "Control") (some 2023)
        ⟨7, "Control", some 1672531200, []⟩ = 120 ∧
    ¬(totalScore (clean_title "Control") (some 2023)
        ⟨7, "Control", some 1672531200, []⟩ ≤ 100) ∧
    (igdb_search_core (clean_title "Control") (some ⟨2023, 1, 1⟩)
        [⟨7, "Control", some 1672531200, []⟩]).2 = 120 := by
  refine ⟨by decide, by decide, by decide⟩

/-! ## C6 — selection and acceptance threshold -/

theorem find?_congr {α : Type} {p q : α → Bool} :
    ∀ {l : List α}, (∀ x ∈ l, p x = q x) → l.find? p = l.find? q := by
  intro l
  induction l with
  | nil => intro _; rfl
  | cons a rest ih =>
    intro h
    have ha := h a (List.mem_cons_self _ _)
    by_cases hp : p a = true
    · rw [List.find?_cons_of_pos _ hp, List.find?_cons_of_pos _ (ha ▸ hp)]
    · have hq : ¬q a = true := fun hc => hp (ha ▸ hc)
      rw [List.find?_cons_of_neg _ hp, List.find?_cons_of_neg _ hq]
      exact ih (fun x hx => h x (List.mem_cons_of_mem _ hx))

theorem exists_max_image {α : Type} (f : α → ℚ) :
    ∀ (l : List α), l ≠ [] → ∃ m ∈ l, ∀ x ∈ l, f x ≤ f m := by
  intro l
  induction l with
  | nil => intro h; exact absurd rfl h
  | cons a rest ih =>
    intro _
    rcases List.eq_nil_or_concat rest with hr | _
    case inl =>
      subst hr
      exact ⟨a, List.mem_cons_self _ _, by
        intro x hx
        rcases List.mem_cons.mp hx with rfl | hx2
        · exact le_refl _
        · cases hx2⟩
    case inr =>
      by_cases hrest : rest = []
      · subst hrest
        exact ⟨a, List.mem_cons_self _ _, by
          intro x hx
          rcases List.mem_cons.mp hx with rfl | hx2
          · exact le_refl _
          · cases hx2⟩
      · obtain ⟨m, hm, hmax⟩ := ih hrest
        by_cases hcmp : f a ≤ f m
        · refine ⟨m, List.mem_cons_of_mem _ hm, ?_⟩
          intro x hx
          rcases List.mem_cons.mp hx with rfl | hx2
          · exact hcmp
          · exact hmax x hx2
        · refine ⟨a, List.mem_cons_self _ _, ?_⟩
          intro x hx
          rcases List.mem_cons.mp hx with rfl | hx2
          · exact le_refl _
          · exact le_trans (hmax x hx2) (le_of_lt (not_le.mp hcmp))

theorem selectStep_lt {t : String} {ry : Option Int}
    {b0 : Option IgdbCandidate} {s0 : ℚ} {c : IgdbCandidate}
    (h : s0 < totalScore t ry c) :
    selectStep t ry (b0, s0) c = (some c, totalScore t ry c) := by
  unfold selectStep
  dsimp only
  rw [if_pos h]

theorem selectStep_ge {t : String} {ry : Option Int}
    {b0 : Option IgdbCandidate} {s0 : ℚ} {c : IgdbCandidate}
    (h : ¬s0 < totalScore t ry c) :
    selectStep t ry (b0, s0) c = (b0, s0) := by
  unfold selectStep
  dsimp only
  rw [if_neg h]

theorem selectFold_snd (t : String) (ry : Option Int) :
    ∀ (data : List IgdbCandidate) (b0 : Option IgdbCandidate) (s0 : ℚ),
    (data.foldl (selectStep t ry) (b0, s0)).2 =
      data.foldl (fun m c => max m (totalScore t ry c)) s0 := by
  intro data
  induction data with
  | nil => intro b0 s0; rfl
  | cons c rest ih =>
    intro b0 s0
    simp only [List.foldl_cons]
    by_cases h : s0 < totalScore t ry c
    · rw [selectStep_lt h, ih, max_eq_right (le_of_lt h)]
    · rw [selectStep_ge h, ih, max_eq_left (not_lt.mp h)]

theorem find?_cons_pos {α : Type} (p : α → Bool) (a : α) (l : List α)
    (h : p a = true) : (a :: l).find? p = some a :=
  List.find?_cons_of_pos l h

theorem find?_cons_neg {α : Type} (p : α → Bool) (a : α) (l : List α)
    (h : p a = false) : (a :: l).find? p = l.find? p :=
  List.find?_cons_of_neg l (by simp [h])

theorem selectFold_fst (t : String) (ry : Option Int) :
    ∀ (data : List IgdbCandidate) (b0 : Option IgdbCandidate) (s0 : ℚ),
    (data.foldl (selectStep t ry) (b0, s0)).1 =
      (match data.find? (fun c => decide (s0 < totalScore t ry c) &&
          data.all (fun c' => decide (totalScore t ry c' ≤ totalScore t ry c))) with
       | some c => some c
       | none => b0) := by
  intro data
  induction data with
  | nil => intro b0 s0; rfl
  | cons c rest ih =>
    intro b0 s0
    simp only [List.foldl_cons]
    by_cases hlt : s0 < totalScore t ry c
    · rw [selectStep_lt hlt, ih]
      by_cases hall :
          rest.all (fun c' =>
            decide (totalScore t ry c' ≤ totalScore t ry c)) = true
      · have hpc : (fun x => decide (s0 < totalScore t ry x) &&
            (c :: rest).all (fun c' =>
              decide (totalScore t ry c' ≤ totalScore t ry x))) c = true := by
          simp only [List.all_cons, Bool.and_eq_true, decide_eq_true_eq]
          exact ⟨hlt, le_refl _, hall⟩
        rw [find?_cons_pos _ c rest hpc]
        have hnone : rest.find? (fun x =>
            decide (totalScore t ry c < totalScore t ry x) &&
            rest.all (fun c' =>
              decide (totalScore t ry c' ≤ totalScore t ry x))) = none := by
          rw [List.find?_eq_none]
          intro x hx
          simp only [Bool.and_eq_true, decide_eq_true_eq]
          rintro ⟨h1, _⟩
          exact absurd h1
            (not_lt.mpr (of_decide_eq_true (List.all_eq_true.mp hall x hx)))
        rw [hnone]
      · have hex : ∃ y ∈ rest, totalScore t ry c < totalScore t ry y := by
          by_contra hcon
          push_neg at hcon
          apply hall
          rw [List.all_eq_true]
          intro x hx
          exact decide_eq_true (hcon x hx)
        obtain ⟨y, hy, hylt⟩ := hex
        have hallf : rest.all (fun c' =>
            decide (totalScore t ry c' ≤ totalScore t ry c)) = false := by
          cases hv : rest.all (fun c' =>
              decide (totalScore t ry c' ≤ totalScore t ry c))
          · rfl
          · exact absurd hv hall
        have hpc : (fun x => decide (s0 < totalScore t ry x) &&
            (c :: rest).all (fun c' =>
              decide (totalScore t ry c' ≤ totalScore t ry x))) c = false := by
          simp only [List.all_cons, hallf, Bool.and_false]
        rw [find?_cons_neg _ c rest hpc]
        have hcong : rest.find? (fun x => decide (s0 < totalScore t ry x) &&
            (c :: rest).all (fun c' =>
              decide (totalScore t ry c' ≤ totalScore t ry x))) =
          rest.find? (fun x =>
            decide (totalScore t ry c < totalScore t ry x) &&
            rest.all (fun c' =>
              decide (totalScore t ry c' ≤ totalScore t ry x))) := by
          apply find?_congr
          intro x hx
          by_cases hra : rest.all (fun c' =>
              decide (totalScore t ry c' ≤ totalScore t ry x)) = true
          · have hyx : totalScore t ry y ≤ totalScore t ry x :=
              of_decide_eq_true (List.all_eq_true.mp hra y hy)
            have hcx : totalScore t ry c < totalScore t ry x :=
              lt_of_lt_of_le hylt hyx
            simp only [List.all_cons, hra, Bool.and_true, decide_eq_true_eq]
            rw [decide_eq_true (lt_trans hlt hcx), decide_eq_true hcx,
              decide_eq_true (le_of_lt hcx)]
            rfl
          · have hra' : rest.all (fun c' =>
                decide (totalScore t ry c' ≤ totalScore t ry x)) = false := by
              cases hv : rest.all (fun c' =>
                  decide (totalScore t ry c' ≤ totalScore t ry x))
              · rfl
              · exact absurd hv hra
            simp only [List.all_cons, hra', Bool.and_false]
        rw [hcong]
        obtain ⟨m, hm, hmax⟩ := exists_max_image (totalScore t ry) rest
          (List.ne_nil_of_mem hy)
        have hcm : totalScore t ry c < totalScore t ry m :=
          lt_of_lt_of_le hylt (hmax y hy)
        have hfind : (rest.find? (fun x =>
            decide (totalScore t ry c < totalScore t ry x) &&
            rest.all (fun c' =>
              decide (totalScore t ry c' ≤ totalScore t ry x)))).isSome := by
          rw [List.find?_isSome]
          refine ⟨m, hm, ?_⟩
          simp only [Bool.and_eq_true, decide_eq_true_eq, List.all_eq_true]
          exact ⟨hcm, fun x hx => hmax x hx⟩
        rcases hfs : rest.find? (fun x =>
            decide (totalScore t ry c < totalScore t ry x) &&
            rest.all (fun c' =>
              decide (totalScore t ry c' ≤ totalScore t ry x))) with _ | w
        · rw [hfs] at hfind; cases hfind
        · rfl
    · rw [selectStep_ge hlt, ih]
      have h1 : decide (s0 < totalScore t ry c) = false := decide_eq_false hlt
      have hpc : (fun x => decide (s0 < totalScore t ry x) &&
          (c :: rest).all (fun c' =>
            decide (totalScore t ry c' ≤ totalScore t ry x))) c = false := by
        simp only [h1, Bool.false_and]
      rw [find?_cons_neg _ c rest hpc]
      have hcong : rest.find? (fun x => decide (s0 < totalScore t ry x) &&
          (c :: rest).all (fun c' =>
            decide (totalScore t ry c' ≤ totalScore t ry x))) =
        rest.find? (fun x => decide (s0 < totalScore t ry x) &&
          rest.all (fun c' =>
            decide (totalScore t ry c' ≤ totalScore t ry x))) := by
        apply find?_congr
        intro x hx
        by_cases hsx : s0 < totalScore t ry x
        · have hcx : totalScore t ry c ≤ totalScore t ry x :=
            le_trans (not_lt.mp hlt) (le_of_lt hsx)
          simp only [List.all_cons, decide_eq_true hcx, Bool.true_and]
        · have h2 : decide (s0 < totalScore t ry x) = false :=
            decide_eq_false hsx
          simp only [h2, Bool.false_and]
      rw [hcong]

theorem foldl_max_eq {α : Type} (f : α → ℚ) :
    ∀ (l : List α) (s0 v : ℚ), s0 ≤ v → (∃ x ∈ l, f x = v) →
      (∀ x ∈ l, f x ≤ v) → l.foldl (fun m x => max m (f x)) s0 = v := by
  intro l
  induction l with
  | nil =>
    intro s0 v _ hex _
    rcases hex with ⟨x, hx, _⟩
    cases hx
  | cons a rest ih =>
    intro s0 v hs0 hex hub
    simp only [List.foldl_cons]
    rcases hex with ⟨x, hx, hxv⟩
    rcases List.mem_cons.mp hx with rfl | hx2
    · -- the head attains v
      by_cases hrest : ∃ y ∈ rest, f y = v
      · exact ih _ v (max_le hs0 (le_of_eq hxv)) hrest
          (fun y hy => hub y (List.mem_cons_of_mem _ hy))
      · -- all of rest is < v; fold keeps max s0 (f x) = v
        have hmax : max s0 (f x) = v := by
          rw [hxv, max_eq_right hs0]
        rw [hmax]
        -- fold of max over rest starting at v stays v
        have : ∀ (r : List α), (∀ y ∈ r, f y ≤ v) →
            r.foldl (fun m y => max m (f y)) v = v := by
          intro r
          induction r with
          | nil => intro _; rfl
          | cons b rb ihb =>
            intro hb
            simp only [List.foldl_cons]
            rw [max_eq_left (hb b (List.mem_cons_self _ _))]
            exact ihb (fun y hy => hb y (List.mem_cons_of_mem _ hy))
        exact this rest (fun y hy => hub y (List.mem_cons_of_mem _ hy))
    · exact ih _ v (max_le hs0 (hub a (List.mem_cons_self a rest))) ⟨x, hx2, hxv⟩
        (fun y hy => hub y (List.mem_cons_of_mem _ hy))

set_option maxHeartbeats 4000000 in
/-- C6 (amended): `search_igdb_best` is characterized by: the winner is the
first candidate whose total is positive and at least every other candidate's
total (the loop keeps the first-seen on ties, and a nobody-above-zero list
selects no one); the winner's id is returned iff its score is at least 80
*and* the id is nonzero (`if igdb_id:` treats id 0 as falsy); in every other
case — best score below 80, no candidates, all totals zero, or id 0 — the
result is `none`. -/
theorem c6_selection_and_threshold (t : String) (rd : Option PyDate)
    (data : List IgdbCandidate) :
    search_igdb_best t rd data =
      (match data.find? (fun c =>
          decide (0 < totalScore (clean_title t) (rd.map fun d => (d.year : Int)) c) &&
          data.all (fun c' =>
            decide (totalScore (clean_title t) (rd.map fun d => (d.year : Int)) c' ≤
              totalScore (clean_title t) (rd.map fun d => (d.year : Int)) c))) with
       | some c =>
         if 80 ≤ totalScore (clean_title t) (rd.map fun d => (d.year : Int)) c ∧
             c.id ≠ 0 then some c.id else none
       | none => none) := by
  unfold search_igdb_best igdb_search_core
  dsimp only
  by_cases hdata : data = []
  · subst hdata
    rfl
  · rw [if_neg hdata]
    unfold selectBest
    have hfst := selectFold_fst (clean_title t)
      (rd.map fun d => (d.year : Int)) data none 0
    have hsnd := selectFold_snd (clean_title t)
      (rd.map fun d => (d.year : Int)) data none 0
    rcases hsel : data.foldl
        (selectStep (clean_title t) (rd.map fun d => (d.year : Int)))
        (none, 0) with ⟨b, s⟩
    rw [hsel] at hfst hsnd
    dsimp only at hfst hsnd
    rw [hsel]
    rcases hf : data.find? (fun c =>
        decide (0 < totalScore (clean_title t) (rd.map fun d => (d.year : Int)) c) &&
        data.all (fun c' =>
          decide (totalScore (clean_title t) (rd.map fun d => (d.year : Int)) c' ≤
            totalScore (clean_title t) (rd.map fun d => (d.year : Int)) c)))
        with _ | w
    · rw [hf] at hfst
      subst hfst
      rfl
    · rw [hf] at hfst
      subst hfst
      have hw := List.find?_some hf
      simp only [Bool.and_eq_true, decide_eq_true_eq, List.all_eq_true] at hw
      have hwmem := List.mem_of_find?_eq_some hf
      have hs : s = totalScore (clean_title t)
          (rd.map fun d => (d.year : Int)) w := by
        rw [hsnd]
        exact foldl_max_eq
          (fun c => totalScore (clean_title t) (rd.map fun d => (d.year : Int)) c)
          data 0
          (totalScore (clean_title t) (rd.map fun d => (d.year : Int)) w)
          (le_of_lt hw.1) ⟨w, hwmem, rfl⟩ (fun x hx => hw.2 x hx)
      subst hs
      by_cases h80 : 80 ≤ totalScore (clean_title t)
          (rd.map fun d => (d.year : Int)) w
      · dsimp only
        rw [if_pos h80]
        dsimp only
        by_cases hid : w.id = 0
        · rw [hid]
          rw [if_neg (fun hc : (0 : Nat) ≠ 0 => hc rfl),
            if_neg (fun hc => hc.2 rfl)]
        · rw [if_pos hid, if_pos ⟨h80, hid⟩]
      · dsimp only
        rw [if_neg h80]
        dsimp only
        rw [if_neg (fun hc => h80 hc.1)]

unseal Rat.add Rat.mul Rat.inv in
/-- Counterexample to C6 as stated ("returns that candidate's metadata id if
and only if its score is at least 80"): a single candidate with id `0`, name
exactly the cleaned query, and matching release year wins with score 120 ≥
80, yet `search_igdb_best` returns `None`, because `if igdb_id:` treats the
id 0 as falsy. -/
theorem c6_counterexample :
    search_igdb_best "Control" (some ⟨2023, 1, 1⟩)
        [⟨0, "Control", some 1672531200, []⟩] = none ∧
    (80 : ℚ) ≤ (igdb_search_core (clean_title "Control") (some ⟨2023, 1, 1⟩)
        [⟨0, "Control", some 1672531200, []⟩]).2 := by
  refine ⟨by decide, by decide⟩

/-! ## C8 — SKU grouping -/

theorem charsLe_total : ∀ a b : List Char, charsLe a b = true ∨ charsLe b a = true := by
  intro a
  induction a with
  | nil => intro b; left; rfl
  | cons x xs ih =>
    intro b
    cases b with
    | nil => right; rfl
    | cons y ys =>
      unfold charsLe
      by_cases h1 : x.toNat < y.toNat
      · left
        rw [if_pos h1]
      · by_cases h2 : y.toNat < x.toNat
        · right
          rw [if_pos h2]
        · rw [if_neg h1, if_neg h2, if_neg h2, if_neg h1]
          exact ih ys

theorem charsLe_trans : ∀ a b c : List Char,
    charsLe a b = true → charsLe b c = true → charsLe a c = true := by
  intro a
  induction a with
  | nil => intro b c _ _; rfl
  | cons x xs ih =>
    intro b c hab hbc
    cases b with
    | nil => exact absurd hab (by simp [charsLe])
    | cons y ys =>
      cases c with
      | nil => exact absurd hbc (by simp [charsLe])
      | cons z zs =>
        unfold charsLe at hab hbc ⊢
        split_ifs at hab hbc ⊢ <;>
          first
            | rfl
            | (exact absurd hab (by decide))
            | (exact absurd hbc (by decide))
            | (exact ih ys zs hab hbc)
            | (exfalso; omega)

theorem strLe_total (a b : String) : strLe a b = true ∨ strLe b a = true :=
  charsLe_total a.toList b.toList

theorem strLe_trans {a b c : String} (h1 : strLe a b = true)
    (h2 : strLe b c = true) : strLe a c = true :=
  charsLe_trans a.toList b.toList c.toList h1 h2

theorem mem_insertBy {α : Type} (le : α → α → Bool) (x : α) :
    ∀ (l : List α) (a : α), a ∈ insertBy le x l ↔ a = x ∨ a ∈ l := by
  intro l
  induction l with
  | nil => intro a; simp [insertBy]
  | cons y ys ih =>
    intro a
    unfold insertBy
    by_cases h : le x y = true
    · rw [if_pos h]
      simp [List.mem_cons]
    · rw [if_neg h]
      simp only [List.mem_cons, ih]
      tauto

theorem mem_sortBy {α : Type} (le : α → α → Bool) :
    ∀ (l : List α) (a : α), a ∈ sortBy le l ↔ a ∈ l := by
  intro l
  induction l with
  | nil => intro a; rfl
  | cons y ys ih =>
    intro a
    unfold sortBy
    simp only [List.foldr_cons]
    rw [mem_insertBy]
    show a = y ∨ a ∈ sortBy le ys ↔ _
    rw [ih]
    simp [List.mem_cons]

theorem pairwise_insertBy {α : Type} (le : α → α → Bool)
    (htot : ∀ a b, le a b = true ∨ le b a = true)
    (htr : ∀ a b c, le a b = true → le b c = true → le a c = true) :
    ∀ (l : List α) (x : α), l.Pairwise (fun a b => le a b = true) →
      (insertBy le x l).Pairwise (fun a b => le a b = true) := by
  intro l
  induction l with
  | nil => intro x _; exact List.pairwise_singleton _ _
  | cons y ys ih =>
    intro x hp
    rcases List.pairwise_cons.mp hp with ⟨hy, hys⟩
    unfold insertBy
    by_cases h : le x y = true
    · rw [if_pos h]
      refine List.pairwise_cons.mpr ⟨?_, hp⟩
      intro b hb
      rcases List.mem_cons.mp hb with rfl | hb2
      · exact h
      · exact htr x y b h (hy b hb2)
    · rw [if_neg h]
      refine List.pairwise_cons.mpr ⟨?_, ih x hys⟩
      intro b hb
      rcases (mem_insertBy le x ys b).mp hb with hbx | hb2
      · rw [hbx]
        rcases htot x y with h1 | h1
        · exact absurd h1 h
        · exact h1
      · exact hy b hb2

theorem pairwise_sortBy {α : Type} (le : α → α → Bool)
    (htot : ∀ a b, le a b = true ∨ le b a = true)
    (htr : ∀ a b c, le a b = true → le b c = true → le a c = true)
    (l : List α) : (sortBy le l).Pairwise (fun a b => le a b = true) := by
  induction l with
  | nil => exact List.Pairwise.nil
  | cons y ys ih =>
    unfold sortBy
    simp only [List.foldr_cons]
    exact pairwise_insertBy le htot htr _ y ih

theorem pair_mem_unique {κ α : Type} :
    ∀ (l : List (κ × α)), (l.map Prod.fst).Nodup →
      ∀ (k : κ) (a b : α), (k, a) ∈ l → (k, b) ∈ l → a = b := by
  intro l
  induction l with
  | nil => intro _ k a b ha _; cases ha
  | cons p rest ih =>
    intro hnd k a b ha hb
    obtain ⟨pk, pv⟩ := p
    rw [List.map_cons] at hnd
    rcases List.nodup_cons.mp hnd with ⟨hp, hrest⟩
    rcases List.mem_cons.mp ha with ha1 | ha1 <;>
      rcases List.mem_cons.mp hb with hb1 | hb1
    · have h1 : a = pv := congrArg Prod.snd ha1
      have h2 : b = pv := congrArg Prod.snd hb1
      rw [h1, h2]
    · have hk : k = pk := congrArg Prod.fst ha1
      have hmem : k ∈ rest.map Prod.fst := List.mem_map_of_mem Prod.fst hb1
      rw [hk] at hmem
      exact absurd hmem hp
    · have hk : k = pk := congrArg Prod.fst hb1
      have hmem : k ∈ rest.map Prod.fst := List.mem_map_of_mem Prod.fst ha1
      rw [hk] at hmem
      exact absurd hmem hp
    · exact ih hrest k a b ha1 hb1

theorem mem_addSku {k : Finset String} {s : String} {k' : Finset String}
    {s' : String} :
    ∀ {gs : List (Finset String × List String)},
      (GMem s' k' (addSku k s gs) ↔ GMem s' k' gs ∨ (s' = s ∧ k' = k)) := by
  intro gs
  induction gs with
  | nil =>
    unfold GMem addSku
    constructor
    · rintro ⟨g, hg, hs⟩
      rcases List.mem_singleton.mp hg with hg1
      have hk : k' = k := congrArg Prod.fst hg1
      have hgg : g = [s] := congrArg Prod.snd hg1
      subst hgg
      exact Or.inr ⟨List.mem_singleton.mp hs, hk⟩
    · rintro (⟨g, hg, _⟩ | ⟨hss, hkk⟩)
      · cases hg
      · subst hss
        subst hkk
        exact ⟨_, List.mem_singleton.mpr rfl, List.mem_singleton.mpr rfl⟩
  | cons p rest ih =>
    obtain ⟨pk, pg⟩ := p
    unfold addSku
    by_cases hpk : pk = k
    · subst hpk
      rw [if_pos rfl]
      unfold GMem
      constructor
      · rintro ⟨g, hg, hs⟩
        rcases List.mem_cons.mp hg with hg1 | hg1
        · have hk : k' = pk := congrArg Prod.fst hg1
          have hgg : g = pg ++ [s] := congrArg Prod.snd hg1
          subst hgg
          rcases List.mem_append.mp hs with hs1 | hs1
          · exact Or.inl ⟨pg, by rw [hk]; exact List.mem_cons_self _ _, hs1⟩
          · exact Or.inr ⟨List.mem_singleton.mp hs1, hk⟩
        · exact Or.inl ⟨g, List.mem_cons_of_mem _ hg1, hs⟩
      · rintro (⟨g, hg, hs⟩ | ⟨hss, hkk⟩)
        · rcases List.mem_cons.mp hg with hg1 | hg1
          · have hk : k' = pk := congrArg Prod.fst hg1
            have hgg : g = pg := congrArg Prod.snd hg1
            rw [hgg] at hs
            exact ⟨pg ++ [s], by rw [hk]; exact List.mem_cons_self _ _,
              List.mem_append.mpr (Or.inl hs)⟩
          · exact ⟨g, List.mem_cons_of_mem _ hg1, hs⟩
        · subst hss
          subst hkk
          exact ⟨_, List.mem_cons_self _ _,
            List.mem_append.mpr (Or.inr (List.mem_singleton.mpr rfl))⟩
    · rw [if_neg hpk]
      unfold GMem
      constructor
      · rintro ⟨g, hg, hs⟩
        rcases List.mem_cons.mp hg with hg1 | hg1
        · exact Or.inl ⟨g, hg1 ▸ List.mem_cons_self _ _, hs⟩
        · rcases ih.mp ⟨g, hg1, hs⟩ with h | h
          · rcases h with ⟨g2, hg2, hs2⟩
            exact Or.inl ⟨g2, List.mem_cons_of_mem _ hg2, hs2⟩
          · exact Or.inr h
      · rintro (⟨g, hg, hs⟩ | h)
        · rcases List.mem_cons.mp hg with hg1 | hg1
          · exact ⟨g, hg1 ▸ List.mem_cons_self _ _, hs⟩
          · rcases ih.mpr (Or.inl ⟨g, hg1, hs⟩) with ⟨g2, hg2, hs2⟩
            exact ⟨g2, List.mem_cons_of_mem _ hg2, hs2⟩
        · rcases ih.mpr (Or.inr h) with ⟨g2, hg2, hs2⟩
          exact ⟨g2, List.mem_cons_of_mem _ hg2, hs2⟩

theorem keys_addSku (k : Finset String) (s : String) :
    ∀ (gs : List (Finset String × List String)),
      (addSku k s gs).map Prod.fst =
        if k ∈ gs.map Prod.fst then gs.map Prod.fst
        else gs.map Prod.fst ++ [k] := by
  intro gs
  induction gs with
  | nil => simp [addSku]
  | cons p rest ih =>
    obtain ⟨pk, pg⟩ := p
    unfold addSku
    by_cases hpk : pk = k
    · subst hpk
      rw [if_pos rfl]
      simp [List.mem_cons]
    · rw [if_neg hpk]
      simp only [List.map_cons, ih]
      by_cases hmem : k ∈ rest.map Prod.fst
      · rw [if_pos hmem, if_pos (by simp [List.mem_cons, hmem])]
      · rw [if_neg hmem,
          if_neg (by
            simp only [List.mem_cons, not_or]
            exact ⟨fun h => hpk h.symm, hmem⟩)]
        rfl

theorem nodup_keys_addSku {k : Finset String} {s : String}
    {gs : List (Finset String × List String)}
    (h : (gs.map Prod.fst).Nodup) : ((addSku k s gs).map Prod.fst).Nodup := by
  rw [keys_addSku]
  by_cases hmem : k ∈ gs.map Prod.fst
  · rw [if_pos hmem]; exact h
  · rw [if_neg hmem]
    simp [List.nodup_append, h, hmem]

theorem buildGroups_fold_mem (s : String) (k : Finset String) :
    ∀ (m : List (String × List String))
      (gs : List (Finset String × List String)),
      (GMem s k (m.foldl (fun gs e => addSku (platformKey e.2) e.1 gs) gs) ↔
        GMem s k gs ∨ ∃ ps, (s, ps) ∈ m ∧ platformKey ps = k) := by
  intro m
  induction m with
  | nil =>
    intro gs
    simp
  | cons e m' ih =>
    intro gs
    obtain ⟨e1, e2⟩ := e
    simp only [List.foldl_cons]
    rw [ih, mem_addSku]
    constructor
    · rintro ((h | ⟨rfl, rfl⟩) | ⟨ps, hps, hk⟩)
      · exact Or.inl h
      · exact Or.inr ⟨e2, List.mem_cons_self _ _, rfl⟩
      · exact Or.inr ⟨ps, List.mem_cons_of_mem _ hps, hk⟩
    · rintro (h | ⟨ps, hps, hk⟩)
      · exact Or.inl (Or.inl h)
      · rcases List.mem_cons.mp hps with hp1 | hp1
        · have h1 : s = e1 := congrArg Prod.fst hp1
          have h2 : ps = e2 := congrArg Prod.snd hp1
          subst h2
          exact Or.inl (Or.inr ⟨h1, hk.symm⟩)
        · exact Or.inr ⟨ps, hp1, hk⟩

theorem buildGroups_nodup_keys :
    ∀ (m : List (String × List String))
      (gs : List (Finset String × List String)),
      (gs.map Prod.fst).Nodup →
      ((m.foldl (fun gs e => addSku (platformKey e.2) e.1 gs) gs).map
        Prod.fst).Nodup := by
  intro m
  induction m with
  | nil => intro gs h; exact h
  | cons e m' ih =>
    intro gs h
    simp only [List.foldl_cons]
    exact ih _ (nodup_keys_addSku h)

/-- C8: SKU grouping.  For a platform map with distinct SKU ids: two SKUs
land in the same output group iff their platform sets (lowercased, with the
streaming-only `"xcloud"` marker removed, as `Finset`s) are equal; every
output group is sorted; the groups are ordered by their smallest member (the
head of each sorted group); and the claim's concrete example evaluates to
`[["A","B"],["C"]]`.  (The function is a plain Lean definition, hence
deterministic and pure.) -/
theorem c8_group_skus_by_platform :
    (∀ (m : List (String × List String)), (m.map Prod.fst).Nodup →
       (∀ s1 ps1 s2 ps2, (s1, ps1) ∈ m → (s2, ps2) ∈ m →
          ((∃ g ∈ group_skus_by_platform m, s1 ∈ g ∧ s2 ∈ g) ↔
             platformKey ps1 = platformKey ps2)) ∧
       (∀ g ∈ group_skus_by_platform m,
          g.Pairwise (fun a b => strLe a b = true)) ∧
       (group_skus_by_platform m).Pairwise
         (fun g1 g2 => strLe (g1.headD "") (g2.headD "") = true)) ∧
    group_skus_by_platform [("A", ["pc"]), ("B", ["pc"]), ("C", ["xbox"])] =
      [["A", "B"], ["C"]] := by
  refine ⟨?_, by decide⟩
  intro m hnd
  have hk_nodup : ((buildGroups m).map Prod.fst).Nodup :=
    buildGroups_nodup_keys m [] (by simp)
  refine ⟨?_, ?_, ?_⟩
  · intro s1 ps1 s2 ps2 h1 h2
    constructor
    · rintro ⟨g, hg, hs1, hs2⟩
      unfold group_skus_by_platform at hg
      dsimp only at hg
      rcases List.mem_map.mp hg with ⟨pr, hpr, hpr2⟩
      have hpr' : pr ∈ buildGroups m := (mem_sortBy _ _ _).mp hpr
      rw [← hpr2] at hs1 hs2
      have hs1' : s1 ∈ pr.2 := (mem_sortBy _ _ _).mp hs1
      have hs2' : s2 ∈ pr.2 := (mem_sortBy _ _ _).mp hs2
      have g1 : GMem s1 pr.1 (buildGroups m) := ⟨pr.2, hpr', hs1'⟩
      have g2 : GMem s2 pr.1 (buildGroups m) := ⟨pr.2, hpr', hs2'⟩
      rcases (buildGroups_fold_mem s1 pr.1 m []).mp g1 with hgm | ⟨ps1', hmem1, hk1⟩
      · rcases hgm with ⟨g0, hg0, _⟩
        cases hg0
      · rcases (buildGroups_fold_mem s2 pr.1 m []).mp g2 with hgm | ⟨ps2', hmem2, hk2⟩
        · rcases hgm with ⟨g0, hg0, _⟩
          cases hg0
        · have e1 : ps1' = ps1 := pair_mem_unique m hnd s1 ps1' ps1 hmem1 h1
          have e2 : ps2' = ps2 := pair_mem_unique m hnd s2 ps2' ps2 hmem2 h2
          rw [e1] at hk1
          rw [e2] at hk2
          rw [hk1, hk2]
    · intro hkeq
      have g1 : GMem s1 (platformKey ps1) (buildGroups m) :=
        (buildGroups_fold_mem s1 (platformKey ps1) m []).mpr
          (Or.inr ⟨ps1, h1, rfl⟩)
      have g2 : GMem s2 (platformKey ps1) (buildGroups m) :=
        (buildGroups_fold_mem s2 (platformKey ps1) m []).mpr
          (Or.inr ⟨ps2, h2, hkeq.symm⟩)
      rcases g1 with ⟨ga, hga, hsa⟩
      rcases g2 with ⟨gb, hgb, hsb⟩
      have hab : ga = gb :=
        pair_mem_unique _ hk_nodup (platformKey ps1) ga gb hga hgb
      rw [← hab] at hsb
      refine ⟨sortStrings ga, ?_, (mem_sortBy _ _ _).mpr hsa,
        (mem_sortBy _ _ _).mpr hsb⟩
      unfold group_skus_by_platform
      dsimp only
      exact List.mem_map.mpr
        ⟨(platformKey ps1, ga), (mem_sortBy _ _ _).mpr hga, rfl⟩
  · intro g hg
    unfold group_skus_by_platform at hg
    dsimp only at hg
    rcases List.mem_map.mp hg with ⟨pr, _, hpr2⟩
    rw [← hpr2]
    exact pairwise_sortBy strLe strLe_total
      (fun a b c hab hbc => strLe_trans hab hbc) pr.2
  · unfold group_skus_by_platform
    dsimp only
    rw [List.pairwise_map]
    exact pairwise_sortBy (fun g1 g2 => strLe (groupKey g1.2) (groupKey g2.2))
      (fun a b => strLe_total (groupKey a.2) (groupKey b.2))
      (fun a b c hab hbc =>
        @strLe_trans (groupKey a.2) (groupKey b.2) (groupKey c.2) hab hbc)
      (buildGroups m)

/-- Witness for C8, instantiating the general part at the claim's example. -/
theorem c8_witness :
    (∃ g ∈ group_skus_by_platform [("A", ["pc"]), ("B", ["pc"]), ("C", ["xbox"])],
       "A" ∈ g ∧ "B" ∈ g) ↔
      platformKey ["pc"] = platformKey ["pc"] :=
  ((c8_group_skus_by_platform.1 [("A", ["pc"]), ("B", ["pc"]), ("C", ["xbox"])]
      (by decide)).1 "A" ["pc"] "B" ["pc"] (by decide) (by decide))

end GPDB
